import Mathlib

/-!
Shallow embedding of `src/plasma/server/src/mem_pool.rs` (Plasma-style mempool).

Modelling conventions:
* Nonces and account ids (`u32` in the source) are modelled as `Nat`; the one
  wrapping arithmetic operation on them, the increment inside `pending_nonce`,
  carries an explicit reduction modulo 2^32.
* `Fee` (`BigDecimal`, an arbitrary-precision decimal with a total order and a
  zero) is modelled as `Rat`.
* `im::OrdMap<Nat, TransferTx>` is modelled as an association list sorted by
  strictly increasing key; `OrdMap`'s `insert` replaces the value at an
  existing key and returns the previous binding.
* `FnvHashMap` and `priority_queue::PriorityQueue` are modelled as association
  lists with unique keys (unique by construction in the source containers).
* Panicking operations (`assert_eq!`, `unwrap`, `usize` underflow) are
  modelled by an `Option` result: `none` is a panic.
-/

namespace MemPoolModel

/-- Scalar types: the source's nonce and account id (both `u32`) are written
`Nat` below; `Fee` abbreviates the model of `BigDecimal`. -/
abbrev Fee := Rat

/-- The modulus of the source's 32-bit nonce arithmetic, 2^32. -/
def U32_MOD : Nat := 4294967296

theorem U32_MOD_pos : 0 < U32_MOD := by decide

/-- The fields of `TransferTx` that the mempool reads: sender, nonce and fee
(`from` is a Lean keyword, hence `from_`). Equality is by value. -/
structure TransferTx where
  from_ : Nat
  nonce : Nat
  fee : Fee
deriving DecidableEq, Repr

/-! ### Association-list primitives

These model the three keyed containers of the source: `im::OrdMap` (sorted,
unique keys), `FnvHashMap` and `PriorityQueue` (unique keys, order of entries
irrelevant except for the deterministic tie-break of `peek`). -/

/-- Value stored at key `k`, if any (first binding found). -/
def lookupVal {α : Type} (k : Nat) (l : List (Nat × α)) : Option α :=
  (l.find? (fun p => p.1 = k)).map Prod.snd

/-- Replace the value at key `k` (no-op on entries with other keys). Models
`PriorityQueue::change_priority` and in-place mutation through
`HashMap::get_mut`. -/
def setVal {α : Type} (k : Nat) (v : α) (l : List (Nat × α)) : List (Nat × α) :=
  l.map (fun p => if p.1 = k then (k, v) else p)

/-- Remove the binding of key `k`. The source containers hold at most one
binding per key, so removing all of them models `HashMap::remove` and the
removal performed by `PriorityQueue::pop`. -/
def removeKey {α : Type} (k : Nat) (l : List (Nat × α)) : List (Nat × α) :=
  l.filter (fun p => ¬ p.1 = k)

/-- Model of `im::OrdMap::insert` on a key-sorted association list: the new
binding replaces any existing binding at the same key. -/
def omInsert {α : Type} (k : Nat) (v : α) (l : List (Nat × α)) : List (Nat × α) :=
  l.filter (fun p => p.1 < k) ++ (k, v) :: l.filter (fun p => k < p.1)

/-- The representation invariant of `im::OrdMap`: keys strictly increase. -/
def omSorted {α : Type} (l : List (Nat × α)) : Prop :=
  l.Pairwise (fun p q => p.1 < q.1)

instance {α : Type} (l : List (Nat × α)) : Decidable (omSorted l) := by
  unfold omSorted; infer_instance

/-! ### `AccountTxQueue` (source lines 14-68) -/

/-- Per-account nonce-ordered map of pending transfers
(`struct AccountTxQueue { queue: OrdMap<Nat, TransferTx> }`). -/
structure AccountTxQueue where
  queue : List (Nat × TransferTx)
deriving DecidableEq, Repr

namespace AccountTxQueue

/-- Model of `AccountTxQueue::default()`. -/
def empty : AccountTxQueue := ⟨[]⟩

/-- The `OrdMap` representation invariant for the wrapped queue. -/
def Wf (q : AccountTxQueue) : Prop := omSorted q.queue

instance (q : AccountTxQueue) : Decidable q.Wf := by
  unfold Wf; infer_instance

/-- Model of `insert` (line 24): `self.queue.insert(tx.nonce, tx).is_none()`. Returns
whether the nonce was new together with the updated queue; an existing entry
at the same nonce is replaced (that is what `OrdMap::insert` does). -/
def insert (q : AccountTxQueue) (tx : TransferTx) : Bool × AccountTxQueue :=
  ((lookupVal tx.nonce q.queue).isNone, ⟨omInsert tx.nonce tx q.queue⟩)

/-- Model of `min_nonce` (line 28): `self.queue.get_min().map(|(k,_)| *k).unwrap_or(0)`.
On a sorted queue the minimum key is the head key. -/
def min_nonce (q : AccountTxQueue) : Nat :=
  (q.queue.head?.map Prod.fst).getD 0

/-- The loop body of `pending_nonce` (lines 33-37): walk the keys in ascending
order, advancing `next_nonce` while it matches. `next_nonce` is a `u32`, so
the increment wraps modulo 2^32 (release-profile overflow semantics, written
with an explicit modulus; a debug build would panic at the same point). -/
def pendingLoop : Nat → List Nat → Nat
  | next, [] => next
  | next, k :: ks => if next ≠ k then next else pendingLoop ((next + 1) % U32_MOD) ks

/-- Model of `pending_nonce` (line 32). -/
def pending_nonce (q : AccountTxQueue) : Nat :=
  pendingLoop q.min_nonce (q.queue.map Prod.fst)

/-- Model of `next_fee` (line 41): fee of the entry with the smallest nonce. -/
def next_fee (q : AccountTxQueue) : Option Fee :=
  q.queue.head?.map (fun p => p.2.fee)

/-- Model of `pop` (lines 45-62). `split_lookup` separates the map into entries with
lesser keys, the entry at `expected_nonce`, and entries with greater keys;
the result is `(rejected, extracted, queue after the call)`. -/
def pop (q : AccountTxQueue) (expected_nonce : Nat) :
    List TransferTx × Option TransferTx × AccountTxQueue :=
  match lookupVal expected_nonce q.queue with
  | some tx =>
    if q.min_nonce = expected_nonce then
      ((q.queue.filter (fun p => p.1 < expected_nonce)).map Prod.snd, some tx,
        ⟨q.queue.filter (fun p => expected_nonce < p.1)⟩)
    else
      -- put it back for this loop cycle (line 54)
      ((q.queue.filter (fun p => p.1 < expected_nonce)).map Prod.snd, none,
        ⟨omInsert expected_nonce tx (q.queue.filter (fun p => expected_nonce < p.1))⟩)
  | none =>
    ((q.queue.filter (fun p => p.1 < expected_nonce)).map Prod.snd ++
       (q.queue.filter (fun p => expected_nonce < p.1)).map Prod.snd, none, ⟨[]⟩)

/-- Model of `len` (line 64). -/
def len (q : AccountTxQueue) : Nat := q.queue.length

end AccountTxQueue

/-! ### The priority queue `order` (crate `priority_queue`) -/

/-- Model of `PriorityQueue::peek`: an entry of maximal priority. Among equal
priorities the earliest entry wins; the crate's tie-break is unspecified but
deterministic, and no claim depends on which entry is chosen. -/
def pqPeek : List (Nat × Fee) → Option (Nat × Fee)
  | [] => none
  | p :: rest =>
    match pqPeek rest with
    | none => some p
    | some q => if q.2 ≤ p.2 then some p else some q

/-- Model of `PriorityQueue::pop`: remove the entry `peek` returns. -/
def pqPop (o : List (Nat × Fee)) : List (Nat × Fee) :=
  match pqPeek o with
  | none => o
  | some p => removeKey p.1 o

/-! ### `TxQueue` (source lines 70-139) -/

/-- Model of `struct TxQueue { queues, order, len }`. -/
structure TxQueue where
  queues : List (Nat × AccountTxQueue)
  order : List (Nat × Fee)
  len : Nat
deriving DecidableEq, Repr

namespace TxQueue

/-- Model of `TxQueue::default()`. -/
def default : TxQueue := ⟨[], [], 0⟩

/-- Model of `peek_next` (line 80). -/
def peek_next (tq : TxQueue) : Option Nat :=
  (pqPeek tq.order).map Prod.fst

/-- Model of `ensure_queue` (lines 108-113): create an empty per-account queue with
priority zero on first use. -/
def ensure_queue (tq : TxQueue) (account_id : Nat) : TxQueue :=
  if (lookupVal account_id tq.queues).isNone then
    { tq with
      queues := tq.queues ++ [(account_id, AccountTxQueue.empty)],
      order := tq.order ++ [(account_id, 0)] }
  else tq

/-- Model of `insert` (lines 115-123). The `match` arm for `none` is unreachable: it
models the `unwrap` after `ensure_queue` has guaranteed the queue exists. -/
def insert (tq : TxQueue) (tx : TransferTx) : TxQueue :=
  let tq1 := tq.ensure_queue tx.from_
  match lookupVal tx.from_ tq1.queues with
  | none => tq1
  | some queue =>
    let (isNew, queue') := queue.insert tx
    { queues := setVal tx.from_ queue' tq1.queues,
      -- `queue.next_fee().unwrap()`: `queue'` is never empty, so the
      -- default of `getD` is never used
      order := setVal tx.from_ ((queue'.next_fee).getD 0) tq1.order,
      len := tq1.len + if isNew then 1 else 0 }

/-- Model of `batch_insert` (lines 125-130). -/
def batch_insert (tq : TxQueue) (list : List TransferTx) : TxQueue :=
  list.foldl insert tq

/-- Model of `pending_nonce` (lines 132-134). -/
def pending_nonce (tq : TxQueue) (account_id : Nat) : Option Nat :=
  (lookupVal account_id tq.queues).map AccountTxQueue.pending_nonce

/-- Model of `next` (lines 85-103). `none` models a panic: the `assert_eq!` with
`peek_next().unwrap()`, the `unwrap` of the account's queue, or underflow of
`self.len -= ejected`. -/
def next (tq : TxQueue) (account_id : Nat) (next_nonce : Nat) :
    Option (List TransferTx × Option TransferTx × TxQueue) :=
  if tq.peek_next = some account_id then
    match lookupVal account_id tq.queues with
    | none => none
    | some queue =>
      let (rejected, tx, queue') := queue.pop next_nonce
      let ejected := rejected.length + if tx.isSome then 1 else 0
      if ejected ≤ tq.len then
        let tq1 : TxQueue :=
          { tq with queues := setVal account_id queue' tq.queues, len := tq.len - ejected }
        match queue'.next_fee with
        | some f =>
          some (rejected, tx, { tq1 with order := setVal account_id f tq1.order })
        | none =>
          some (rejected, tx,
            { tq1 with
              order := pqPop tq1.order,
              queues := removeKey account_id tq1.queues })
      else none
  else none

end TxQueue

/-! ### `MemPool` admission and batch processing (source lines 142-239) -/

/-- Model of `MAX_TRANSACTIONS_PER_ACCOUNT` (line 12). -/
def MAX_TRANSACTIONS_PER_ACCOUNT : Nat := 128

/-- The admission error taxonomy. The source returns formatted strings
(lines 196 and 203); the inductive captures which error occurred and the
data interpolated into the message. -/
inductive TxError where
  | tooManyPerAccount
  | nonceOutOfSequence (expected got : Nat)
deriving DecidableEq, Repr

/-- Model of `add_transaction` (lines 191-210), as a function from the mempool's queue
and the incoming transaction to the updated queue and an optional error; on
error the queue is returned unchanged, mirroring the imperative code, which
only mutates on success. -/
def add_transaction (q : TxQueue) (transaction : TransferTx) : TxQueue × Option TxError :=
  match lookupVal transaction.from_ q.queues with
  | some queue =>
    if MAX_TRANSACTIONS_PER_ACCOUNT ≤ queue.len then
      (q, some TxError.tooManyPerAccount)
    else if transaction.nonce ≠ queue.pending_nonce then
      (q, some (TxError.nonceOutOfSequence queue.pending_nonce transaction.nonce))
    else (q.insert transaction, none)
  | none => (q.insert transaction, none)

/-- The state-keeper's verdict inside its reply (see `process_batch`,
lines 229-238): `Ok((applied, block_number))` or `Err((valid, invalid))`. -/
inductive BatchResult where
  | applied (applied : List TransferTx) (block_number : Nat)
  | rejected (valid invalid : List TransferTx)
deriving DecidableEq, Repr

/-- Model of `process_batch` (lines 212-239) as a function of the state-keeper's reply
`(queue, result)` received on the oneshot channel: the mempool adopts the
returned queue and, on `Err((valid, invalid))`, reinserts `valid` via
`batch_insert`. The mempool's own queue is moved out to the state keeper and
plays no further role. -/
def process_batch (reply : TxQueue × BatchResult) : TxQueue :=
  match reply with
  | (queue_back, BatchResult.applied _ _) => queue_back
  | (queue_back, BatchResult.rejected valid _) => queue_back.batch_insert valid

/-- Model of `struct MemPool { batch_requested, queue }` (lines 142-147). -/
structure MemPool where
  batch_requested : Bool
  queue : TxQueue
deriving DecidableEq, Repr

/-- Model of `enum MempoolRequest` (lines 149-153). The reply channel of
`GetPendingNonce` is elided: the handler sends the nonce and does not change
mempool state. -/
inductive MempoolRequest where
  | addTransaction (tx : TransferTx)
  | getPendingNonce (account_id : Nat)
  | processBatch
deriving DecidableEq, Repr

/-- One iteration of the event loop `run` (lines 162-188): handle one request,
returning the new mempool state and the requests it self-posts to its own
channel. `batch_size` stands for `config::TRANSFER_BATCH_SIZE`, whose value
is outside this file's sources (the spec only requires it positive); `reply`
is the state keeper's answer, consumed only by `ProcessBatch`. -/
def handle_request (batch_size : Nat) (mp : MemPool) (req : MempoolRequest)
    (reply : TxQueue × BatchResult) : MemPool × List MempoolRequest :=
  match req with
  | MempoolRequest.addTransaction tx =>
    let (q', res) := add_transaction mp.queue tx
    match res with
    | some _ => ({ mp with queue := q' }, [])
    | none =>
      if mp.batch_requested = false ∧ batch_size ≤ q'.len then
        ({ batch_requested := true, queue := q' }, [MempoolRequest.processBatch])
      else ({ mp with queue := q' }, [])
  | MempoolRequest.getPendingNonce _ => (mp, [])
  | MempoolRequest.processBatch =>
    -- `self.batch_requested = false;` happens first (line 180), before
    -- `process_batch` runs
    let mp1 : MemPool := { mp with batch_requested := false }
    ({ mp1 with queue := process_batch reply }, [])

/-- A state of the mempool loop: the mempool plus the FIFO contents of its
request channel. -/
structure LoopState where
  pool : MemPool
  channel : List MempoolRequest
deriving DecidableEq, Repr

/-- Transitions of the loop: an external producer enqueues a request
(producers never emit `ProcessBatch`, per the interface contract), or the
loop dequeues the head request, handles it, and appends its self-posted
requests to the channel tail. -/
inductive LoopStep (batch_size : Nat) : LoopState → LoopState → Prop
  | arrive (s : LoopState) (r : MempoolRequest) (reply : TxQueue × BatchResult)
      (h : r ≠ MempoolRequest.processBatch) :
      LoopStep batch_size s ⟨s.pool, s.channel ++ [r]⟩
  | handle (s : LoopState) (req : MempoolRequest) (rest : List MempoolRequest)
      (reply : TxQueue × BatchResult) (mp' : MemPool) (posts : List MempoolRequest)
      (hc : s.channel = req :: rest)
      (hh : handle_request batch_size s.pool req reply = (mp', posts)) :
      LoopStep batch_size s ⟨mp', rest ++ posts⟩

/-- Loop states reachable from start-up: `MemPool::default()` (both fields
defaulted) with an empty channel. -/
inductive LoopReachable (batch_size : Nat) : LoopState → Prop
  | init : LoopReachable batch_size ⟨⟨false, TxQueue.default⟩, []⟩
  | step {s s' : LoopState} : LoopReachable batch_size s → LoopStep batch_size s s' →
      LoopReachable batch_size s'

/-- The `TxQueue` states reachable from `TxQueue::default()` by `insert`,
`batch_insert` and `next` calls that respect `next`'s documented
precondition (a `next` that would panic produces no state). -/
inductive Reachable : TxQueue → Prop
  | base : Reachable TxQueue.default
  | insert {tq : TxQueue} (tx : TransferTx) : Reachable tq → Reachable (tq.insert tx)
  | batch {tq : TxQueue} (list : List TransferTx) :
      Reachable tq → Reachable (tq.batch_insert list)
  | next {tq tq' : TxQueue} {a : Nat} {n : Nat}
      {r : List TransferTx} {e : Option TransferTx} :
      Reachable tq → tq.next a n = some (r, e, tq') → Reachable tq'

end MemPoolModel

/-! ### Association-list lemmas -/

namespace MemPoolModel

theorem lookupVal_cons {α : Type} (k : Nat) (p : Nat × α) (l : List (Nat × α)) :
    lookupVal k (p :: l) = if p.1 = k then some p.2 else lookupVal k l := by
  by_cases h : p.1 = k <;> simp [lookupVal, List.find?_cons, h]

theorem lookupVal_eq_none {α : Type} {k : Nat} {l : List (Nat × α)} :
    lookupVal k l = none ↔ ∀ p ∈ l, p.1 ≠ k := by
  simp [lookupVal, List.find?_eq_none]

theorem lookupVal_mem {α : Type} {k : Nat} {v : α} {l : List (Nat × α)}
    (h : lookupVal k l = some v) : (k, v) ∈ l := by
  unfold lookupVal at h
  obtain ⟨p, hp, hpv⟩ := Option.map_eq_some'.mp h
  have hk : p.1 = k := by simpa using List.find?_some hp
  have hm : p ∈ l := List.mem_of_find?_eq_some hp
  obtain ⟨a, b⟩ := p
  simp only at hk hpv
  rw [← hk, ← hpv]; exact hm

theorem mem_keys_iff_lookup {α : Type} {k : Nat} {l : List (Nat × α)} :
    k ∈ l.map Prod.fst ↔ (lookupVal k l).isSome := by
  induction l with
  | nil => simp [lookupVal]
  | cons p t ih =>
    rw [List.map_cons, List.mem_cons, lookupVal_cons]
    by_cases h : p.1 = k
    · simp [h]
    · rw [if_neg h, ← ih]
      constructor
      · rintro (rfl | hm)
        · exact absurd rfl h
        · exact hm
      · intro hm; exact Or.inr hm

theorem setVal_cons {α : Type} (k : Nat) (v : α) (p : Nat × α) (l : List (Nat × α)) :
    setVal k v (p :: l) = (if p.1 = k then (k, v) else p) :: setVal k v l := rfl

theorem removeKey_cons {α : Type} (k : Nat) (p : Nat × α) (l : List (Nat × α)) :
    removeKey k (p :: l) =
      if p.1 = k then removeKey k l else p :: removeKey k l := by
  by_cases h : p.1 = k <;> simp [removeKey, List.filter_cons, h]

theorem keys_setVal {α : Type} (k : Nat) (v : α) (l : List (Nat × α)) :
    (setVal k v l).map Prod.fst = l.map Prod.fst := by
  induction l with
  | nil => rfl
  | cons p t ih =>
    simp only [setVal, List.map_cons] at ih ⊢
    by_cases h : p.1 = k
    · simp [h, ih]
    · simp [h, ih]

theorem lookupVal_setVal_self {α : Type} (k : Nat) (v : α) (l : List (Nat × α)) :
    lookupVal k (setVal k v l) = (lookupVal k l).map (fun _ => v) := by
  induction l with
  | nil => rfl
  | cons p t ih =>
    by_cases h : p.1 = k
    · simp [setVal, lookupVal_cons, h]
    · simp only [setVal, List.map_cons, if_neg h] at ih ⊢
      rw [lookupVal_cons, lookupVal_cons, if_neg h, if_neg h, ih]

theorem lookupVal_setVal_ne {α : Type} {j k : Nat} (hjk : j ≠ k) (v : α)
    (l : List (Nat × α)) : lookupVal j (setVal k v l) = lookupVal j l := by
  induction l with
  | nil => rfl
  | cons p t ih =>
    by_cases h : p.1 = k
    · have : ¬ (k = j) := fun he => hjk he.symm
      simp [setVal, lookupVal_cons, h, this] at ih ⊢
      rw [ih]
    · simp only [setVal, List.map_cons, if_neg h] at ih ⊢
      rw [lookupVal_cons, lookupVal_cons, ih]

theorem setVal_of_absent {α : Type} {k : Nat} {l : List (Nat × α)}
    (h : ∀ p ∈ l, p.1 ≠ k) (v : α) : setVal k v l = l := by
  induction l with
  | nil => rfl
  | cons p t ih =>
    have hp : p.1 ≠ k := h p (by simp)
    simp only [setVal, List.map_cons, if_neg hp]
    rw [List.cons_inj_right]
    exact ih (fun q hq => h q (by simp [hq]))

theorem mem_setVal {α : Type} {p' : Nat × α} {k : Nat} {v : α} {l : List (Nat × α)}
    (h : p' ∈ setVal k v l) : p' = (k, v) ∨ (p' ∈ l ∧ p'.1 ≠ k) := by
  obtain ⟨p, hp, he⟩ := List.mem_map.mp h
  by_cases hk : p.1 = k
  · left; rw [← he, if_pos hk]
  · right; rw [← he, if_neg hk]; exact ⟨hp, hk⟩

theorem mem_removeKey {α : Type} {p' : Nat × α} {k : Nat} {l : List (Nat × α)} :
    p' ∈ removeKey k l ↔ p' ∈ l ∧ p'.1 ≠ k := by
  simp [removeKey, List.mem_filter]

theorem keys_removeKey {α : Type} {j k : Nat} {l : List (Nat × α)} :
    j ∈ (removeKey k l).map Prod.fst ↔ j ∈ l.map Prod.fst ∧ j ≠ k := by
  simp only [List.mem_map]
  constructor
  · rintro ⟨p, hp, rfl⟩
    obtain ⟨hl, hne⟩ := mem_removeKey.mp hp
    exact ⟨⟨p, hl, rfl⟩, hne⟩
  · rintro ⟨⟨p, hp, rfl⟩, hne⟩
    exact ⟨p, mem_removeKey.mpr ⟨hp, hne⟩, rfl⟩

theorem lookupVal_removeKey_ne {α : Type} {j k : Nat} (hjk : j ≠ k)
    (l : List (Nat × α)) : lookupVal j (removeKey k l) = lookupVal j l := by
  induction l with
  | nil => rfl
  | cons p t ih =>
    rw [removeKey_cons]
    by_cases h : p.1 = k
    · have hpj : ¬ (p.1 = j) := fun he => hjk (he.symm.trans h)
      rw [if_pos h, ih, lookupVal_cons, if_neg hpj]
    · rw [if_neg h, lookupVal_cons, lookupVal_cons, ih]

theorem removeKey_setVal {α : Type} (k : Nat) (v : α) (l : List (Nat × α)) :
    removeKey k (setVal k v l) = removeKey k l := by
  induction l with
  | nil => rfl
  | cons p t ih =>
    by_cases h : p.1 = k
    · simp [removeKey, setVal, h] at ih ⊢; exact ih
    · simp [removeKey, setVal, h] at ih ⊢; exact ih

theorem removeKey_of_absent {α : Type} {k : Nat} {l : List (Nat × α)}
    (h : ∀ p ∈ l, p.1 ≠ k) : removeKey k l = l := by
  unfold removeKey
  apply List.filter_eq_self.mpr
  intro p hp
  simpa using h p hp

theorem nodup_keys_removeKey {α : Type} {k : Nat} {l : List (Nat × α)}
    (h : (l.map Prod.fst).Nodup) : ((removeKey k l).map Prod.fst).Nodup :=
  ((List.filter_sublist l).map Prod.fst).nodup h

theorem lookupVal_append_some {α : Type} {k : Nat} {v : α} {l₁ l₂ : List (Nat × α)}
    (h : lookupVal k l₁ = some v) : lookupVal k (l₁ ++ l₂) = some v := by
  induction l₁ with
  | nil => simp [lookupVal] at h
  | cons p t ih =>
    rw [lookupVal_cons] at h
    rw [List.cons_append, lookupVal_cons]
    by_cases hp : p.1 = k
    · rwa [if_pos hp] at h ⊢
    · rw [if_neg hp] at h ⊢; exact ih h

theorem lookupVal_append_none {α : Type} {k : Nat} {l₁ l₂ : List (Nat × α)}
    (h : lookupVal k l₁ = none) : lookupVal k (l₁ ++ l₂) = lookupVal k l₂ := by
  induction l₁ with
  | nil => rfl
  | cons p t ih =>
    rw [lookupVal_cons] at h
    rw [List.cons_append, lookupVal_cons]
    by_cases hp : p.1 = k
    · rw [if_pos hp] at h; exact absurd h (by simp)
    · rw [if_neg hp] at h ⊢; exact ih h

end MemPoolModel

namespace MemPoolModel

theorem sum_map_setVal {α : Type} (g : Nat × α → Nat) {l : List (Nat × α)} {k : Nat}
    {w : α} (hnd : (l.map Prod.fst).Nodup) (hw : (k, w) ∈ l) (v : α) :
    ((setVal k v l).map g).sum + g (k, w) = (l.map g).sum + g (k, v) := by
  induction l with
  | nil => cases hw
  | cons p t ih =>
    rw [List.map_cons, List.nodup_cons] at hnd
    rw [setVal_cons]
    by_cases h : p.1 = k
    · have habs : ∀ q ∈ t, q.1 ≠ k := by
        intro q hq he
        exact hnd.1 (h ▸ he ▸ List.mem_map_of_mem Prod.fst hq)
      have hpw : p = (k, w) := by
        rcases List.mem_cons.mp hw with he | ht
        · exact he.symm
        · exact absurd rfl (habs _ ht)
      rw [if_pos h, setVal_of_absent habs, hpw]
      simp only [List.map_cons, List.sum_cons]
      omega
    · have hwt : (k, w) ∈ t := by
        rcases List.mem_cons.mp hw with he | ht
        · exact absurd (by rw [← he]) h
        · exact ht
      rw [if_neg h]
      simp only [List.map_cons, List.sum_cons]
      have := ih hnd.2 hwt
      omega

theorem sum_map_removeKey {α : Type} (g : Nat × α → Nat) {l : List (Nat × α)} {k : Nat}
    {w : α} (hnd : (l.map Prod.fst).Nodup) (hw : (k, w) ∈ l) :
    ((removeKey k l).map g).sum + g (k, w) = (l.map g).sum := by
  induction l with
  | nil => cases hw
  | cons p t ih =>
    rw [List.map_cons, List.nodup_cons] at hnd
    rw [removeKey_cons]
    by_cases h : p.1 = k
    · have habs : ∀ q ∈ t, q.1 ≠ k := by
        intro q hq he
        exact hnd.1 (h ▸ he ▸ List.mem_map_of_mem Prod.fst hq)
      have hpw : p = (k, w) := by
        rcases List.mem_cons.mp hw with he | ht
        · exact he.symm
        · exact absurd rfl (habs _ ht)
      rw [if_pos h, removeKey_of_absent habs, hpw]
      simp only [List.map_cons, List.sum_cons]
      omega
    · have hwt : (k, w) ∈ t := by
        rcases List.mem_cons.mp hw with he | ht
        · exact absurd (by rw [← he]) h
        · exact ht
      rw [if_neg h]
      simp only [List.map_cons, List.sum_cons]
      have := ih hnd.2 hwt
      omega

theorem length_filter_partition {α : Type} (l : List (Nat × α)) (k : Nat) :
    (l.filter (fun p => p.1 < k)).length + (l.filter (fun p => p.1 = k)).length
      + (l.filter (fun p => k < p.1)).length = l.length := by
  induction l with
  | nil => rfl
  | cons p t ih =>
    simp only [List.filter_cons, List.length_cons]
    rcases Nat.lt_trichotomy p.1 k with h | h | h
    · have h2 : ¬ p.1 = k := Nat.ne_of_lt h
      have h3 : ¬ k < p.1 := Nat.lt_asymm h
      simp only [h, h2, h3, decide_eq_true_eq]
      simp only [if_pos, if_neg, decide_eq_false_iff_not]
      simp [h, h2, h3]
      omega
    · have h2 : ¬ p.1 < k := by omega
      have h3 : ¬ k < p.1 := by omega
      simp [h, h2, h3]
      omega
    · have h2 : ¬ p.1 < k := by omega
      have h3 : ¬ p.1 = k := by omega
      simp [h, h2, h3]
      omega

theorem filter_three_perm {α : Type} (l : List (Nat × α)) (k : Nat) :
    (l.filter (fun p => p.1 < k) ++ l.filter (fun p => p.1 = k)
      ++ l.filter (fun p => k < p.1)).Perm l := by
  induction l with
  | nil => simp
  | cons p t ih =>
    simp only [List.filter_cons]
    rcases Nat.lt_trichotomy p.1 k with h | h | h
    · have h2 : ¬ p.1 = k := Nat.ne_of_lt h
      have h3 : ¬ k < p.1 := Nat.lt_asymm h
      rw [if_pos (by simpa using h), if_neg (by simpa using h2),
        if_neg (by simpa using h3), List.cons_append, List.cons_append]
      exact (List.perm_cons p).mpr ih
    · have h2 : ¬ p.1 < k := by omega
      have h3 : ¬ k < p.1 := by omega
      have ih' : (t.filter (fun p => p.1 < k) ++ (t.filter (fun p => p.1 = k)
          ++ t.filter (fun p => k < p.1))).Perm t := by
        rw [← List.append_assoc]; exact ih
      rw [if_neg (by simpa using h2), if_pos (by simpa using h),
        if_neg (by simpa using h3), List.append_assoc, List.cons_append]
      exact List.perm_middle.trans ((List.perm_cons p).mpr ih')
    · have h2 : ¬ p.1 < k := by omega
      have h3 : ¬ p.1 = k := by omega
      rw [if_neg (by simpa using h2), if_neg (by simpa using h3),
        if_pos (by simpa using h)]
      exact List.perm_middle.trans ((List.perm_cons p).mpr ih)

end MemPoolModel

namespace MemPoolModel

theorem omSorted_nodup_keys {α : Type} {l : List (Nat × α)} (h : omSorted l) :
    (l.map Prod.fst).Nodup := by
  have hp : (l.map Prod.fst).Pairwise (· < ·) := List.pairwise_map.mpr h
  exact hp.imp Nat.ne_of_lt

theorem omSorted_filter {α : Type} {l : List (Nat × α)} (h : omSorted l)
    (f : Nat × α → Bool) : omSorted (l.filter f) :=
  List.Pairwise.sublist (List.filter_sublist l) h

theorem mem_filter_lt {α : Type} {l : List (Nat × α)} {k : Nat} {p : Nat × α}
    (h : p ∈ l.filter (fun p => p.1 < k)) : p ∈ l ∧ p.1 < k := by
  have := List.mem_filter.mp h
  simpa using this

theorem mem_filter_gt {α : Type} {l : List (Nat × α)} {k : Nat} {p : Nat × α}
    (h : p ∈ l.filter (fun p => k < p.1)) : p ∈ l ∧ k < p.1 := by
  have := List.mem_filter.mp h
  simpa using this

theorem omSorted_omInsert {α : Type} {l : List (Nat × α)} (h : omSorted l)
    (k : Nat) (v : α) : omSorted (omInsert k v l) := by
  unfold omInsert omSorted
  rw [List.pairwise_append]
  refine ⟨omSorted_filter h _, ?_, ?_⟩
  · rw [List.pairwise_cons]
    exact ⟨fun b hb => (mem_filter_gt hb).2, omSorted_filter h _⟩
  · intro a ha b hb
    have ha' := mem_filter_lt ha
    rcases List.mem_cons.mp hb with rfl | hb'
    · exact ha'.2
    · exact ha'.2.trans (mem_filter_gt hb').2

theorem omInsert_ne_nil {α : Type} (k : Nat) (v : α) (l : List (Nat × α)) :
    omInsert k v l ≠ [] := by
  unfold omInsert
  simp

theorem mem_omInsert {α : Type} {p' : Nat × α} {k : Nat} {v : α} {l : List (Nat × α)}
    (h : p' ∈ omInsert k v l) : p' = (k, v) ∨ p' ∈ l := by
  unfold omInsert at h
  rcases List.mem_append.mp h with h1 | h1
  · exact Or.inr (mem_filter_lt h1).1
  · rcases List.mem_cons.mp h1 with rfl | h2
    · exact Or.inl rfl
    · exact Or.inr (mem_filter_gt h2).1

theorem omInsert_of_gt {α : Type} {l : List (Nat × α)} {k : Nat}
    (h : ∀ p ∈ l, k < p.1) (v : α) : omInsert k v l = (k, v) :: l := by
  unfold omInsert
  have h1 : l.filter (fun p => p.1 < k) = [] := by
    rw [List.filter_eq_nil_iff]
    intro p hp
    have := h p hp
    simp only [decide_eq_true_eq]
    omega
  have h2 : l.filter (fun p => k < p.1) = l := by
    rw [List.filter_eq_self]
    intro p hp
    simp only [decide_eq_true_eq]
    exact h p hp
  rw [h1, h2, List.nil_append]

theorem filter_eq_key_of_lookup_none {α : Type} {l : List (Nat × α)} {k : Nat}
    (h : lookupVal k l = none) : l.filter (fun p => p.1 = k) = [] := by
  rw [List.filter_eq_nil_iff]
  intro p hp
  have := lookupVal_eq_none.mp h p hp
  simp only [decide_eq_true_eq]
  exact this

theorem filter_eq_key_of_lookup_some {α : Type} {l : List (Nat × α)} {k : Nat} {v : α}
    (hnd : (l.map Prod.fst).Nodup) (h : lookupVal k l = some v) :
    l.filter (fun p => p.1 = k) = [(k, v)] := by
  induction l with
  | nil => simp [lookupVal] at h
  | cons p t ih =>
    rw [List.map_cons, List.nodup_cons] at hnd
    rw [lookupVal_cons] at h
    rw [List.filter_cons]
    by_cases hp : p.1 = k
    · rw [if_pos hp] at h
      have habs : ∀ q ∈ t, q.1 ≠ k := by
        intro q hq he
        exact hnd.1 (hp ▸ he ▸ List.mem_map_of_mem Prod.fst hq)
      have ht : t.filter (fun p => p.1 = k) = [] := by
        rw [List.filter_eq_nil_iff]
        intro q hq
        simp only [decide_eq_true_eq]
        exact habs q hq
      rw [if_pos (by simpa using hp), ht]
      obtain ⟨a, b⟩ := p
      simp only at hp h
      rw [hp, Option.some_inj.mp h]
    · rw [if_neg hp] at h
      rw [if_neg (by simpa using hp)]
      exact ih hnd.2 h

theorem length_omInsert {α : Type} {l : List (Nat × α)} {k : Nat}
    (hnd : (l.map Prod.fst).Nodup) (v : α) :
    (omInsert k v l).length
      = l.length + if (lookupVal k l).isNone then 1 else 0 := by
  have hpart := length_filter_partition l k
  unfold omInsert
  rw [List.length_append, List.length_cons]
  cases hl : lookupVal k l with
  | none =>
    rw [filter_eq_key_of_lookup_none hl] at hpart
    simp only [List.length_nil] at hpart
    simp only [Option.isNone_none, if_true]
    omega
  | some w =>
    rw [filter_eq_key_of_lookup_some hnd hl] at hpart
    simp only [List.length_singleton] at hpart
    simp only [Option.isNone_some, Bool.false_eq_true, if_false]
    omega

theorem omSorted_head_lt {α : Type} {p : Nat × α} {t : List (Nat × α)}
    (h : omSorted (p :: t)) : ∀ q ∈ t, p.1 < q.1 :=
  (List.pairwise_cons.mp h).1

end MemPoolModel

namespace MemPoolModel

namespace AccountTxQueue

/-- The unbounded-Nat reference walk: what the `pending_nonce` loop would
compute if `next_nonce` could not wrap. `pendingLoop` agrees with it modulo
2^32 on `u32`-keyed queues (`pendingLoop_eq_mod` below). -/
def pendingRun : Nat → List Nat → Nat
  | next, [] => next
  | next, k :: ks => if next ≠ k then next else pendingRun (next + 1) ks

theorem pendingRun_cons_ne {n k : Nat} (t : List Nat) (h : n ≠ k) :
    pendingRun n (k :: t) = n := by
  simp only [pendingRun]
  rw [if_pos h]

theorem pendingRun_cons_eq {n k : Nat} (t : List Nat) (h : n = k) :
    pendingRun n (k :: t) = pendingRun (n + 1) t := by
  simp only [pendingRun]
  rw [if_neg (fun hc => hc h)]

theorem pendingRun_le (ks : List Nat) : ∀ n : Nat, n ≤ pendingRun n ks := by
  induction ks with
  | nil => intro n; exact Nat.le_refl n
  | cons k t ih =>
    intro n
    by_cases h : n = k
    · rw [pendingRun_cons_eq t h]
      exact Nat.le_trans (Nat.le_succ n) (ih (n + 1))
    · rw [pendingRun_cons_ne t h]

theorem pendingRun_mem (ks : List Nat) :
    ∀ n m : Nat, n ≤ m → m < pendingRun n ks → m ∈ ks := by
  induction ks with
  | nil =>
    intro n m h1 h2
    have : pendingRun n [] = n := rfl
    omega
  | cons k t ih =>
    intro n m h1 h2
    by_cases h : n = k
    · rw [pendingRun_cons_eq t h] at h2
      by_cases hm : m = n
      · rw [hm, h]; exact List.mem_cons_self k t
      · exact List.mem_cons_of_mem k (ih (n + 1) m (by omega) h2)
    · rw [pendingRun_cons_ne t h] at h2
      omega

theorem pendingRun_not_mem (ks : List Nat) :
    ∀ n : Nat, (∀ j ∈ ks, n ≤ j) → ks.Pairwise (· < ·) →
      pendingRun n ks ∉ ks := by
  induction ks with
  | nil => intro n _ _; exact List.not_mem_nil _
  | cons k t ih =>
    intro n hge hs
    rw [List.pairwise_cons] at hs
    by_cases h : n = k
    · rw [pendingRun_cons_eq t h]
      intro hmem
      rcases List.mem_cons.mp hmem with he | hmem'
      · have := pendingRun_le t (n + 1)
        omega
      · exact ih (n + 1) (fun j hj => by have := hs.1 j hj; omega) hs.2 hmem'
    · rw [pendingRun_cons_ne t h]
      intro hmem
      rcases List.mem_cons.mp hmem with rfl | hmem'
      · exact h rfl
      · have h1 : n ≤ k := hge k (List.mem_cons_self k t)
        have h2 : k < n := hs.1 n hmem'
        omega

theorem pendingLoop_cons_ne {n k : Nat} (t : List Nat) (h : n ≠ k) :
    pendingLoop n (k :: t) = n := by
  simp only [pendingLoop]
  rw [if_pos h]

theorem pendingLoop_cons_eq {n k : Nat} (t : List Nat) (h : n = k) :
    pendingLoop n (k :: t) = pendingLoop ((n + 1) % U32_MOD) t := by
  simp only [pendingLoop]
  rw [if_neg (fun hc => hc h)]

/-- On strictly sorted keys below 2^32 that are all at least `next`, the
wrapping walk agrees with the unbounded reference walk modulo 2^32: the wrap
can only trigger after matching the key `2^32 - 1`, which is necessarily the
last key, so the loop stops immediately after wrapping. -/
theorem pendingLoop_eq_mod (ks : List Nat) :
    ∀ n : Nat, ks.Pairwise (· < ·) → (∀ j ∈ ks, j < U32_MOD) →
      (∀ j ∈ ks, n ≤ j) → n < U32_MOD →
      pendingLoop n ks = pendingRun n ks % U32_MOD := by
  induction ks with
  | nil =>
    intro n _ _ _ hn
    exact (Nat.mod_eq_of_lt hn).symm
  | cons k t ih =>
    intro n hs hb hge hn
    rw [List.pairwise_cons] at hs
    by_cases h : n = k
    · rw [pendingLoop_cons_eq t h, pendingRun_cons_eq t h]
      by_cases h2 : n + 1 < U32_MOD
      · rw [Nat.mod_eq_of_lt h2]
        exact ih (n + 1) hs.2 (fun j hj => hb j (List.mem_cons_of_mem k hj))
          (fun j hj => by have := hs.1 j hj; omega) h2
      · have ht : t = [] := by
          cases t with
          | nil => rfl
          | cons j t' =>
            have h3 := hs.1 j (List.mem_cons_self j t')
            have h4 := hb j (List.mem_cons_of_mem k (List.mem_cons_self j t'))
            omega
        subst ht
        rfl
    · rw [pendingLoop_cons_ne t h, pendingRun_cons_ne t h]
      exact (Nat.mod_eq_of_lt hn).symm

theorem wf_keys_pairwise {q : AccountTxQueue} (h : q.Wf) :
    (q.queue.map Prod.fst).Pairwise (· < ·) :=
  List.pairwise_map.mpr h

theorem min_nonce_le_keys {q : AccountTxQueue} (h : q.Wf) :
    ∀ j ∈ q.queue.map Prod.fst, q.min_nonce ≤ j := by
  intro j hj
  obtain ⟨p, hp, rfl⟩ := List.mem_map.mp hj
  have h2 : omSorted q.queue := h
  cases hq : q.queue with
  | nil => rw [hq] at hp; cases hp
  | cons hd t =>
    have hmin : q.min_nonce = hd.1 := by
      unfold min_nonce; rw [hq]; rfl
    rw [hq] at hp h2
    rw [hmin]
    rcases List.mem_cons.mp hp with rfl | hp'
    · exact Nat.le_refl _
    · exact Nat.le_of_lt (omSorted_head_lt h2 p hp')

theorem next_fee_eq_none {q : AccountTxQueue} :
    q.next_fee = none ↔ q.queue = [] := by
  unfold next_fee
  cases q.queue <;> simp

theorem next_fee_isSome {q : AccountTxQueue} (h : q.queue ≠ []) :
    ∃ f, q.next_fee = some f := by
  unfold next_fee
  cases hq : q.queue with
  | nil => exact absurd hq h
  | cons p t => exact ⟨p.2.fee, rfl⟩

/-! Equation lemmas for the three branches of `pop`. -/

theorem pop_eq_none {q : AccountTxQueue} {n : Nat}
    (hl : lookupVal n q.queue = none) :
    q.pop n = ((q.queue.filter (fun p => p.1 < n)).map Prod.snd ++
      (q.queue.filter (fun p => n < p.1)).map Prod.snd, none, ⟨[]⟩) := by
  unfold pop; rw [hl]

theorem pop_eq_found {q : AccountTxQueue} {n : Nat} {tx : TransferTx}
    (hl : lookupVal n q.queue = some tx) :
    q.pop n
      = if q.min_nonce = n then
          ((q.queue.filter (fun p => p.1 < n)).map Prod.snd, some tx,
            ⟨q.queue.filter (fun p => n < p.1)⟩)
        else
          ((q.queue.filter (fun p => p.1 < n)).map Prod.snd, none,
            ⟨omInsert n tx (q.queue.filter (fun p => n < p.1))⟩) := by
  unfold pop; rw [hl]

theorem pop_eq_exact {q : AccountTxQueue} {n : Nat} {tx : TransferTx}
    (hl : lookupVal n q.queue = some tx) (he : q.min_nonce = n) :
    q.pop n = ((q.queue.filter (fun p => p.1 < n)).map Prod.snd, some tx,
      ⟨q.queue.filter (fun p => n < p.1)⟩) := by
  rw [pop_eq_found hl, if_pos he]

theorem pop_eq_putback {q : AccountTxQueue} {n : Nat} {tx : TransferTx}
    (hl : lookupVal n q.queue = some tx) (he : ¬ q.min_nonce = n) :
    q.pop n = ((q.queue.filter (fun p => p.1 < n)).map Prod.snd, none,
      ⟨omInsert n tx (q.queue.filter (fun p => n < p.1))⟩) := by
  rw [pop_eq_found hl, if_neg he]

/-- Applying `pop` keeps the queue well formed. -/
theorem pop_wf {q : AccountTxQueue} (h : q.Wf) (n : Nat) : ((q.pop n).2.2).Wf := by
  cases hl : lookupVal n q.queue with
  | none =>
    rw [pop_eq_none hl]
    exact List.Pairwise.nil
  | some tx =>
    by_cases he : q.min_nonce = n
    · rw [pop_eq_exact hl he]
      exact omSorted_filter h _
    · rw [pop_eq_putback hl he]
      exact omSorted_omInsert (omSorted_filter h _) n tx

/-- Conservation: rejected plus extracted plus the remaining entries are a
permutation of the original entries' transactions. -/
theorem pop_perm {q : AccountTxQueue} (h : q.Wf) (n : Nat) :
    ((q.pop n).1 ++ (q.pop n).2.1.toList ++ ((q.pop n).2.2).queue.map Prod.snd).Perm
      (q.queue.map Prod.snd) := by
  have hperm := (filter_three_perm q.queue n).map Prod.snd
  cases hl : lookupVal n q.queue with
  | none =>
    rw [pop_eq_none hl]
    rw [filter_eq_key_of_lookup_none hl] at hperm
    simpa using hperm
  | some tx =>
    have hmid := filter_eq_key_of_lookup_some (omSorted_nodup_keys h) hl
    rw [hmid] at hperm
    by_cases he : q.min_nonce = n
    · rw [pop_eq_exact hl he]
      simpa using hperm
    · rw [pop_eq_putback hl he]
      have hgt : ∀ p ∈ q.queue.filter (fun p => n < p.1), n < p.1 :=
        fun p hp => (mem_filter_gt hp).2
      rw [omInsert_of_gt hgt tx]
      simpa using hperm

/-- Counting form of conservation. -/
theorem pop_count {q : AccountTxQueue} (h : q.Wf) (n : Nat) :
    (q.pop n).1.length + (if (q.pop n).2.1.isSome then 1 else 0)
      + ((q.pop n).2.2).len = q.len := by
  have hp := (pop_perm h n).length_eq
  simp only [List.length_append, List.length_map] at hp
  have htl : (q.pop n).2.1.toList.length = if (q.pop n).2.1.isSome then 1 else 0 := by
    cases (q.pop n).2.1 <;> rfl
  unfold len
  omega

/-- On a well-keyed queue (every stored transaction carries the nonce it is
keyed by), an extracted transaction has the expected nonce. -/
theorem pop_extracted_nonce {q : AccountTxQueue} {n : Nat} {tx : TransferTx}
    (hwk : ∀ p ∈ q.queue, p.2.nonce = p.1)
    (he : (q.pop n).2.1 = some tx) : tx.nonce = n := by
  cases hl : lookupVal n q.queue with
  | none =>
    rw [pop_eq_none hl] at he
    cases he
  | some tx' =>
    by_cases hm : q.min_nonce = n
    · rw [pop_eq_exact hl hm] at he
      have : tx' = tx := by simpa using he
      subst this
      exact hwk (n, tx') (lookupVal_mem hl)
    · rw [pop_eq_putback hl hm] at he
      cases he

end AccountTxQueue

theorem pqPeek_cons_none {rest : List (Nat × Fee)} (h : pqPeek rest = none)
    (p : Nat × Fee) : pqPeek (p :: rest) = some p := by
  unfold pqPeek; rw [h]

theorem pqPeek_cons_some {rest : List (Nat × Fee)} {q : Nat × Fee}
    (h : pqPeek rest = some q) (p : Nat × Fee) :
    pqPeek (p :: rest) = if q.2 ≤ p.2 then some p else some q := by
  unfold pqPeek; rw [h]

theorem pqPeek_mem {o : List (Nat × Fee)} {p : Nat × Fee}
    (h : pqPeek o = some p) : p ∈ o := by
  induction o with
  | nil => cases h
  | cons hd t ih =>
    cases hr : pqPeek t with
    | none =>
      rw [pqPeek_cons_none hr hd] at h
      exact List.mem_cons.mpr (Or.inl (by simpa using h.symm))
    | some q =>
      rw [pqPeek_cons_some hr hd] at h
      by_cases hq : q.2 ≤ hd.2
      · rw [if_pos hq] at h
        exact List.mem_cons.mpr (Or.inl (by simpa using h.symm))
      · rw [if_neg hq] at h
        exact List.mem_cons.mpr (Or.inr (ih (hr.trans h)))

theorem pqPeek_cons_ne_none (p : Nat × Fee) (rest : List (Nat × Fee)) :
    pqPeek (p :: rest) ≠ none := by
  unfold pqPeek
  cases pqPeek rest with
  | none => simp
  | some q => by_cases hq : q.2 ≤ p.2 <;> simp [hq]

theorem pqPop_of_peek {o : List (Nat × Fee)} {p : Nat × Fee}
    (h : pqPeek o = some p) : pqPop o = removeKey p.1 o := by
  unfold pqPop; rw [h]

end MemPoolModel

namespace MemPoolModel

theorem setVal_append {α : Type} (k : Nat) (v : α) (l₁ l₂ : List (Nat × α)) :
    setVal k v (l₁ ++ l₂) = setVal k v l₁ ++ setVal k v l₂ :=
  List.map_append _ _ _

namespace TxQueue

theorem insert_eq_absent {tq : TxQueue} {tx : TransferTx}
    (h : lookupVal tx.from_ tq.queues = none)
    (ho : ∀ p ∈ tq.order, p.1 ≠ tx.from_) :
    tq.insert tx = ⟨tq.queues ++ [(tx.from_, ⟨[(tx.nonce, tx)]⟩)],
      tq.order ++ [(tx.from_, tx.fee)], tq.len + 1⟩ := by
  have hq : ∀ p ∈ tq.queues, p.1 ≠ tx.from_ := lookupVal_eq_none.mp h
  have he : tq.ensure_queue tx.from_
      = ⟨tq.queues ++ [(tx.from_, AccountTxQueue.empty)],
          tq.order ++ [(tx.from_, 0)], tq.len⟩ := by
    unfold ensure_queue
    rw [h]
    rfl
  have hl2 : lookupVal tx.from_ (tq.queues ++ [(tx.from_, AccountTxQueue.empty)])
      = some AccountTxQueue.empty := by
    rw [lookupVal_append_none h, lookupVal_cons]
    simp
  unfold insert
  rw [he]
  simp only [hl2]
  unfold AccountTxQueue.insert
  rw [setVal_append, setVal_of_absent hq, setVal_append, setVal_of_absent ho]
  simp [setVal, omInsert, AccountTxQueue.empty, AccountTxQueue.next_fee, lookupVal]

theorem insert_eq_present {tq : TxQueue} {tx : TransferTx} {queue : AccountTxQueue}
    (h : lookupVal tx.from_ tq.queues = some queue) :
    tq.insert tx = ⟨setVal tx.from_ ⟨omInsert tx.nonce tx queue.queue⟩ tq.queues,
      setVal tx.from_
        (((⟨omInsert tx.nonce tx queue.queue⟩ : AccountTxQueue).next_fee).getD 0) tq.order,
      tq.len + if (lookupVal tx.nonce queue.queue).isNone then 1 else 0⟩ := by
  have he : tq.ensure_queue tx.from_ = tq := by
    unfold ensure_queue
    rw [h]
    rfl
  unfold insert
  rw [he]
  simp only [h]
  unfold AccountTxQueue.insert
  rfl

end TxQueue

/-- The representation invariant tying the three fields of `TxQueue` together:
unique keys in both maps, the same set of accounts in `queues` and `order`,
well-formed and non-empty per-account queues, the cached `len`, and priority
coherence (`order` stores each account's `next_fee`). -/
structure TxQueueInv (tq : TxQueue) : Prop where
  nodup_queues : (tq.queues.map Prod.fst).Nodup
  nodup_order : (tq.order.map Prod.fst).Nodup
  keys_iff : ∀ a : Nat, a ∈ tq.queues.map Prod.fst ↔ a ∈ tq.order.map Prod.fst
  wf : ∀ p ∈ tq.queues, p.2.Wf
  nonempty : ∀ p ∈ tq.queues, p.2.queue ≠ []
  len_eq : tq.len = (tq.queues.map (fun p => p.2.len)).sum
  prio : ∀ p ∈ tq.queues, lookupVal p.1 tq.order = p.2.next_fee

theorem default_inv : TxQueueInv TxQueue.default := by
  constructor <;> simp [TxQueue.default]


theorem insert_inv {tq : TxQueue} (hinv : TxQueueInv tq) (tx : TransferTx) :
    TxQueueInv (tq.insert tx) := by
  cases h : lookupVal tx.from_ tq.queues with
  | none =>
    have ha : tx.from_ ∉ tq.queues.map Prod.fst := by
      rw [mem_keys_iff_lookup, h]; simp
    have hao : tx.from_ ∉ tq.order.map Prod.fst := fun hc => ha ((hinv.keys_iff _).mpr hc)
    have ho : ∀ p ∈ tq.order, p.1 ≠ tx.from_ := by
      intro p hp he
      exact hao (he ▸ List.mem_map_of_mem Prod.fst hp)
    rw [TxQueue.insert_eq_absent h ho]
    constructor
    · simp only [List.map_append, List.map_cons, List.map_nil]
      rw [List.nodup_append]
      exact ⟨hinv.nodup_queues, List.nodup_singleton _, by simpa using ha⟩
    · simp only [List.map_append, List.map_cons, List.map_nil]
      rw [List.nodup_append]
      exact ⟨hinv.nodup_order, List.nodup_singleton _, by simpa using hao⟩
    · intro b
      simp only [List.map_append, List.map_cons, List.map_nil, List.mem_append,
        List.mem_singleton]
      rw [hinv.keys_iff b]
    · intro p hp
      rcases List.mem_append.mp hp with h1 | h1
      · exact hinv.wf p h1
      · rcases List.mem_singleton.mp h1 with rfl
        exact List.pairwise_singleton _ _
    · intro p hp
      rcases List.mem_append.mp hp with h1 | h1
      · exact hinv.nonempty p h1
      · rcases List.mem_singleton.mp h1 with rfl
        simp
    · have hlen := hinv.len_eq
      simp only [List.map_append, List.map_cons, List.map_nil, List.sum_append,
        List.sum_cons, List.sum_nil, AccountTxQueue.len] at hlen ⊢
      simp only [List.length_cons, List.length_nil]
      omega
    · intro p hp
      rcases List.mem_append.mp hp with h1 | h1
      · have hne : p.1 ≠ tx.from_ := by
          intro he
          exact ha (he ▸ List.mem_map_of_mem Prod.fst h1)
        have hsome : ∃ f, lookupVal p.1 tq.order = some f := by
          have h2 := hinv.prio p h1
          obtain ⟨f, hf⟩ := AccountTxQueue.next_fee_isSome (hinv.nonempty p h1)
          exact ⟨f, h2.trans hf⟩
        obtain ⟨f, hf⟩ := hsome
        rw [lookupVal_append_some hf]
        rw [← hf]
        exact hinv.prio p h1
      · rcases List.mem_singleton.mp h1 with rfl
        have hnone : lookupVal tx.from_ tq.order = none :=
          lookupVal_eq_none.mpr ho
        rw [lookupVal_append_none hnone, lookupVal_cons]
        simp [AccountTxQueue.next_fee]
  | some queue =>
    have hmem : (tx.from_, queue) ∈ tq.queues := lookupVal_mem h
    have hqwf : queue.Wf := hinv.wf _ hmem
    have hq'wf : ((⟨omInsert tx.nonce tx queue.queue⟩ : AccountTxQueue)).Wf :=
      omSorted_omInsert hqwf tx.nonce tx
    have hq'ne : ((⟨omInsert tx.nonce tx queue.queue⟩ : AccountTxQueue)).queue ≠ [] :=
      omInsert_ne_nil _ _ _
    obtain ⟨f, hf⟩ := AccountTxQueue.next_fee_isSome
      (q := ⟨omInsert tx.nonce tx queue.queue⟩) hq'ne
    have hgd : (((⟨omInsert tx.nonce tx queue.queue⟩ : AccountTxQueue)).next_fee).getD 0
        = f := by
      rw [hf]; rfl
    have hain : tx.from_ ∈ tq.queues.map Prod.fst := List.mem_map_of_mem Prod.fst hmem
    have haorder : tx.from_ ∈ tq.order.map Prod.fst := (hinv.keys_iff _).mp hain
    rw [TxQueue.insert_eq_present h]
    constructor
    · rw [keys_setVal]; exact hinv.nodup_queues
    · rw [keys_setVal]; exact hinv.nodup_order
    · intro b
      rw [keys_setVal, keys_setVal]; exact hinv.keys_iff b
    · intro p hp
      rcases mem_setVal hp with rfl | ⟨h1, _⟩
      · exact hq'wf
      · exact hinv.wf p h1
    · intro p hp
      rcases mem_setVal hp with rfl | ⟨h1, _⟩
      · exact hq'ne
      · exact hinv.nonempty p h1
    · have hsum := sum_map_setVal (fun p => p.2.len) hinv.nodup_queues hmem
        (⟨omInsert tx.nonce tx queue.queue⟩ : AccountTxQueue)
      have hlen := hinv.len_eq
      have hins : ((⟨omInsert tx.nonce tx queue.queue⟩ : AccountTxQueue)).len
          = queue.len + if (lookupVal tx.nonce queue.queue).isNone then 1 else 0 := by
        simp only [AccountTxQueue.len]
        exact length_omInsert (omSorted_nodup_keys hqwf) tx
      dsimp only at hsum hins hlen ⊢
      omega
    · intro p hp
      rcases mem_setVal hp with rfl | ⟨h1, hne⟩
      · simp only
        rw [hgd, hf, lookupVal_setVal_self]
        cases hcase : lookupVal tx.from_ tq.order with
        | none =>
          rw [mem_keys_iff_lookup, hcase] at haorder
          cases haorder
        | some f0 => rfl
      · rw [lookupVal_setVal_ne hne _ _]
        exact hinv.prio p h1

theorem batch_insert_inv {tq : TxQueue} (hinv : TxQueueInv tq)
    (list : List TransferTx) : TxQueueInv (tq.batch_insert list) := by
  induction list generalizing tq with
  | nil => exact hinv
  | cons x xs ih =>
    have hstep : tq.batch_insert (x :: xs) = (tq.insert x).batch_insert xs := rfl
    rw [hstep]
    exact ih (insert_inv hinv x)

end MemPoolModel

namespace MemPoolModel

/-- Unfolding of `TxQueue.next` when the precondition holds, the account's
queue exists, and the length subtraction cannot underflow. -/
theorem TxQueue.next_eq {tq : TxQueue} {a n : Nat} {queue : AccountTxQueue}
    {r : List TransferTx} {e : Option TransferTx} {q' : AccountTxQueue}
    (hpeek : tq.peek_next = some a)
    (hq : lookupVal a tq.queues = some queue)
    (hp : queue.pop n = (r, e, q'))
    (hlen : r.length + (if e.isSome then 1 else 0) ≤ tq.len) :
    tq.next a n = some (r, e,
      match q'.next_fee with
      | some f => ⟨setVal a q' tq.queues, setVal a f tq.order,
          tq.len - (r.length + if e.isSome then 1 else 0)⟩
      | none => ⟨removeKey a (setVal a q' tq.queues), pqPop tq.order,
          tq.len - (r.length + if e.isSome then 1 else 0)⟩) := by
  unfold next
  rw [if_pos hpeek]
  simp only [hq, hp]
  rw [if_pos hlen]
  cases q'.next_fee <;> rfl

end MemPoolModel

namespace MemPoolModel

/-- Master lemma for `TxQueue.next` on an invariant-satisfying state whose
`peek_next` is `some a`: the call cannot panic, it returns `pop`'s rejected
and extracted components, the cached length decreases by exactly the number
of ejected transactions, the invariant is preserved, and the two priority
branches behave as the source describes. -/
theorem next_master {tq : TxQueue} (hinv : TxQueueInv tq) {a : Nat}
    (hpeek : tq.peek_next = some a) (n : Nat) :
    ∃ queue r e q', lookupVal a tq.queues = some queue ∧ queue.queue ≠ [] ∧
      queue.pop n = (r, e, q') ∧
      r.length + (if e.isSome then 1 else 0) ≤ tq.len ∧
      ∃ tq', tq.next a n = some (r, e, tq') ∧ TxQueueInv tq' ∧
        tq'.len + (r.length + if e.isSome then 1 else 0) = tq.len ∧
        (∀ f, q'.next_fee = some f →
          tq'.queues = setVal a q' tq.queues ∧ tq'.order = setVal a f tq.order) ∧
        (q'.next_fee = none →
          tq'.queues = removeKey a tq.queues ∧ tq'.order = removeKey a tq.order) := by
  obtain ⟨pk, hpk, hpk1⟩ := Option.map_eq_some'.mp hpeek
  have hka : pk.1 = a := hpk1
  have hmemo : pk ∈ tq.order := pqPeek_mem hpk
  have hao : a ∈ tq.order.map Prod.fst := hka ▸ List.mem_map_of_mem Prod.fst hmemo
  have haq : a ∈ tq.queues.map Prod.fst := (hinv.keys_iff a).mpr hao
  have hqs : (lookupVal a tq.queues).isSome := mem_keys_iff_lookup.mp haq
  cases hq : lookupVal a tq.queues with
  | none => rw [hq] at hqs; cases hqs
  | some queue =>
  have hmemq : (a, queue) ∈ tq.queues := lookupVal_mem hq
  have hqwf : queue.Wf := hinv.wf _ hmemq
  have hqne : queue.queue ≠ [] := hinv.nonempty _ hmemq
  rcases hp : queue.pop n with ⟨r, e, q'⟩
  have hcount : r.length + (if e.isSome then 1 else 0) + q'.len = queue.len := by
    have := AccountTxQueue.pop_count hqwf n
    rw [hp] at this
    exact this
  have hql : queue.len ≤ tq.len := by
    rw [hinv.len_eq]
    exact List.single_le_sum (fun y _ => Nat.zero_le y) _
      (List.mem_map_of_mem (fun p => p.2.len) hmemq)
  have hlen : r.length + (if e.isSome then 1 else 0) ≤ tq.len := by omega
  have hq'wf : q'.Wf := by
    have := AccountTxQueue.pop_wf hqwf n
    rw [hp] at this
    exact this
  refine ⟨queue, r, e, q', rfl, hqne, hp, hlen, ?_⟩
  rw [TxQueue.next_eq hpeek hq hp hlen]
  cases hnf : q'.next_fee with
  | some f =>
    have hq'ne : q'.queue ≠ [] := by
      intro hc
      rw [AccountTxQueue.next_fee_eq_none.mpr hc] at hnf
      cases hnf
    dsimp only
    refine ⟨_, rfl, ?_, ?_, ?_, ?_⟩
    · constructor
      · rw [keys_setVal]; exact hinv.nodup_queues
      · rw [keys_setVal]; exact hinv.nodup_order
      · intro b
        rw [keys_setVal, keys_setVal]; exact hinv.keys_iff b
      · intro p hpm
        rcases mem_setVal hpm with rfl | ⟨h1, _⟩
        · exact hq'wf
        · exact hinv.wf p h1
      · intro p hpm
        rcases mem_setVal hpm with rfl | ⟨h1, _⟩
        · exact hq'ne
        · exact hinv.nonempty p h1
      · have hsum := sum_map_setVal (fun p => p.2.len) hinv.nodup_queues hmemq q'
        have hleneq := hinv.len_eq
        dsimp only at hsum ⊢
        omega
      · intro p hpm
        rcases mem_setVal hpm with rfl | ⟨h1, hne⟩
        · dsimp only
          rw [hnf, lookupVal_setVal_self]
          cases hcase : lookupVal a tq.order with
          | none =>
            rw [mem_keys_iff_lookup, hcase] at hao
            cases hao
          | some f0 => rfl
        · rw [lookupVal_setVal_ne hne _ _]
          exact hinv.prio p h1
    · dsimp only
      omega
    · intro f' hf'
      cases hf'
      exact ⟨rfl, rfl⟩
    · intro hf'
      cases hf'
  | none =>
    have hq'nil : q'.queue = [] := AccountTxQueue.next_fee_eq_none.mp hnf
    have hq'len : q'.len = 0 := by
      unfold AccountTxQueue.len
      rw [hq'nil]
      rfl
    have hrw1 : removeKey a (setVal a q' tq.queues) = removeKey a tq.queues :=
      removeKey_setVal a q' tq.queues
    have hrw2 : pqPop tq.order = removeKey a tq.order := by
      rw [pqPop_of_peek hpk, hka]
    dsimp only
    refine ⟨_, rfl, ?_, ?_, ?_, ?_⟩
    · constructor
      · dsimp only
        rw [hrw1]
        exact nodup_keys_removeKey hinv.nodup_queues
      · dsimp only
        rw [hrw2]
        exact nodup_keys_removeKey hinv.nodup_order
      · intro b
        dsimp only
        rw [hrw1, hrw2]
        rw [keys_removeKey, keys_removeKey, hinv.keys_iff b]
      · intro p hpm
        dsimp only at hpm
        rw [hrw1] at hpm
        exact hinv.wf p (mem_removeKey.mp hpm).1
      · intro p hpm
        dsimp only at hpm
        rw [hrw1] at hpm
        exact hinv.nonempty p (mem_removeKey.mp hpm).1
      · dsimp only
        rw [hrw1]
        have hsum := sum_map_removeKey (fun p => p.2.len) hinv.nodup_queues hmemq
        have hleneq := hinv.len_eq
        dsimp only at hsum
        omega
      · intro p hpm
        dsimp only at hpm ⊢
        rw [hrw1] at hpm
        obtain ⟨h1, hne⟩ := mem_removeKey.mp hpm
        rw [hrw2, lookupVal_removeKey_ne hne _]
        exact hinv.prio p h1
    · dsimp only
      omega
    · intro f' hf'
      cases hf'
    · intro _
      dsimp only
      rw [hrw1, hrw2]
      exact ⟨rfl, rfl⟩

end MemPoolModel

namespace MemPoolModel

theorem next_some_peek {tq : TxQueue} {a n : Nat}
    {x : List TransferTx × Option TransferTx × TxQueue}
    (h : tq.next a n = some x) : tq.peek_next = some a := by
  by_cases hp : tq.peek_next = some a
  · exact hp
  · unfold TxQueue.next at h
    rw [if_neg hp] at h
    cases h

/-- Every reachable `TxQueue` satisfies the representation invariant. -/
theorem reachable_inv {tq : TxQueue} (h : Reachable tq) : TxQueueInv tq := by
  induction h with
  | base => exact default_inv
  | insert tx _ ih => exact insert_inv ih tx
  | batch list _ ih => exact batch_insert_inv ih list
  | next hre hnext ih =>
    have hpeek := next_some_peek hnext
    obtain ⟨queue, r', e', q', _, _, _, _, tq'', hnext', hinv', _, _, _⟩ :=
      next_master ih hpeek _
    have heq := Option.some_inj.mp (hnext'.symm.trans hnext)
    have h3 : tq'' = _ :=
      congrArg (fun t : List TransferTx × Option TransferTx × TxQueue => t.2.2) heq
    simp only at h3
    exact h3 ▸ hinv'

end MemPoolModel

/-! ### Concrete scenario states (from the source's tests) -/

namespace MemPoolModel

/-- The test helper `tx(from, nonce, fee)` (source lines 260-266). -/
def mkTx (f n fee : Nat) : TransferTx := ⟨f, n, (fee : Rat)⟩

/-- The `TxQueue` of scenario S5 / `test_tx_queue` (source lines 335-352):
insert `tx(1,5,20)`, `tx(2,0,40)`, `tx(1,6,50)`, then the duplicate-nonce
`tx(1,5,50)`. -/
def s5Queue : TxQueue :=
  (((TxQueue.default.insert (mkTx 1 5 20)).insert (mkTx 2 0 40)).insert
    (mkTx 1 6 50)).insert (mkTx 1 5 50)

theorem s5_reachable : Reachable s5Queue :=
  Reachable.insert _ (Reachable.insert _ (Reachable.insert _
    (Reachable.insert _ Reachable.base)))

/-- The account queue holding nonces 5 and 7 (scenarios S2-S4,
`test_account_tx_queue`). -/
def s2Aq : AccountTxQueue := ⟨[(5, mkTx 1 5 20), (7, mkTx 1 7 40)]⟩

end MemPoolModel

/-! ### Claim theorems -/

namespace MemPoolModel

/-- C2: for every well-formed `AccountQueue` state and every `expected_nonce`,
`pop` follows the three-branch split: (1) an entry at the expected nonce with
the pre-split minimum equal to it is extracted, the queue keeps the greater
entries, and nothing is rejected; (2) if the entry exists but smaller-nonce
entries were present, the queue becomes the greater entries with the entry
re-inserted, nothing is extracted, and the smaller entries are rejected;
(3) with no entry at the expected nonce the queue empties and every entry
(smaller and greater) is rejected. -/
theorem pop_three_branch_split (q : AccountTxQueue) (n : Nat) (hwf : q.Wf) :
    (∀ tx, lookupVal n q.queue = some tx → q.min_nonce = n →
      q.pop n = ([], some tx, ⟨q.queue.filter (fun p => n < p.1)⟩))
    ∧ (∀ tx, lookupVal n q.queue = some tx →
        q.queue.filter (fun p => p.1 < n) ≠ [] →
        q.pop n = ((q.queue.filter (fun p => p.1 < n)).map Prod.snd, none,
          ⟨(n, tx) :: q.queue.filter (fun p => n < p.1)⟩))
    ∧ (lookupVal n q.queue = none →
        q.pop n = ((q.queue.filter (fun p => p.1 < n)).map Prod.snd ++
            (q.queue.filter (fun p => n < p.1)).map Prod.snd, none, ⟨[]⟩)
          ∧ ((q.queue.filter (fun p => p.1 < n)).map Prod.snd ++
              (q.queue.filter (fun p => n < p.1)).map Prod.snd).Perm
            (q.queue.map Prod.snd)) := by
  refine ⟨?_, ?_, ?_⟩
  · intro tx hl he
    have hlesser : q.queue.filter (fun p => p.1 < n) = [] := by
      rw [List.filter_eq_nil_iff]
      intro p hp
      have := AccountTxQueue.min_nonce_le_keys hwf p.1 (List.mem_map_of_mem Prod.fst hp)
      simp only [decide_eq_true_eq]
      omega
    rw [AccountTxQueue.pop_eq_exact hl he, hlesser]
    rfl
  · intro tx hl hne
    obtain ⟨p, hp⟩ := List.exists_mem_of_ne_nil _ hne
    obtain ⟨hpq, hplt⟩ := mem_filter_lt hp
    have hmin : q.min_nonce ≤ p.1 :=
      AccountTxQueue.min_nonce_le_keys hwf p.1 (List.mem_map_of_mem Prod.fst hpq)
    have he : ¬ q.min_nonce = n := by omega
    rw [AccountTxQueue.pop_eq_putback hl he]
    have hgt : ∀ p ∈ q.queue.filter (fun p => n < p.1), n < p.1 :=
      fun p hp => (mem_filter_gt hp).2
    rw [omInsert_of_gt hgt tx]
  · intro hl
    refine ⟨AccountTxQueue.pop_eq_none hl, ?_⟩
    have hperm := (filter_three_perm q.queue n).map Prod.snd
    rw [filter_eq_key_of_lookup_none hl] at hperm
    simpa using hperm

/-- C2 witness: scenario S4 — on the queue with nonces 5 and 7, `pop 7`
rejects the stale nonce-5 entry and re-inserts the nonce-7 entry. -/
theorem pop_three_branch_split_witness :
    s2Aq.pop 7 = ([mkTx 1 5 20], none, ⟨[(7, mkTx 1 7 40)]⟩) := by
  have h := (pop_three_branch_split s2Aq 7 (by decide)).2.1 (mkTx 1 7 40)
    (by decide) (by decide)
  exact h.trans (by decide)

end MemPoolModel

namespace MemPoolModel

/-- C6 counterexample: on the queue holding only nonce 5, `pending_nonce()`
returns 6, yet 6 is not the least nonce N with "N is not a key and every
nonce in [min_key, N) is a key": N = 0 also satisfies that description
(the interval [5, 0) is empty), so the claimed characterisation fails. -/
theorem pending_nonce_least_counterexample :
    (⟨[(5, mkTx 1 5 20)]⟩ : AccountTxQueue).pending_nonce = 6
    ∧ ¬ IsLeast {N : Nat |
          N ∉ ((⟨[(5, mkTx 1 5 20)]⟩ : AccountTxQueue)).queue.map Prod.fst
          ∧ ∀ m : Nat, (⟨[(5, mkTx 1 5 20)]⟩ : AccountTxQueue).min_nonce ≤ m →
              m < N →
              m ∈ ((⟨[(5, mkTx 1 5 20)]⟩ : AccountTxQueue)).queue.map Prod.fst}
        ((⟨[(5, mkTx 1 5 20)]⟩ : AccountTxQueue)).pending_nonce := by
  constructor
  · decide
  · intro hleast
    have h0 : (0 : Nat) ∈ {N : Nat |
        N ∉ ((⟨[(5, mkTx 1 5 20)]⟩ : AccountTxQueue)).queue.map Prod.fst
        ∧ ∀ m : Nat, (⟨[(5, mkTx 1 5 20)]⟩ : AccountTxQueue).min_nonce ≤ m →
            m < 0 →
            m ∈ ((⟨[(5, mkTx 1 5 20)]⟩ : AccountTxQueue)).queue.map Prod.fst} := by
      refine ⟨by decide, ?_⟩
      intro m _ hm
      omega
    have h6 := hleast.2 h0
    have : (⟨[(5, mkTx 1 5 20)]⟩ : AccountTxQueue).pending_nonce = 6 := by decide
    omega

/-- C6 (amended): on every well-formed `AccountQueue` with `u32` keys,
`pending_nonce()` computes, up to the `u32` wrap of its increment, the least
nonce N that is at least `min_nonce` such that N is not a key and every
nonce in [min_nonce, N) is a key: it returns that N reduced modulo 2^32
(N itself unless the key run reaches `u32::MAX`, where the source wraps to
0); on the empty queue it returns 0 and `next_fee()` is `none`. -/
theorem pending_nonce_spec (q : AccountTxQueue) (hwf : q.Wf)
    (hbound : ∀ p ∈ q.queue, p.1 < U32_MOD) :
    (∃ N : Nat, IsLeast {N : Nat | q.min_nonce ≤ N ∧ N ∉ q.queue.map Prod.fst
        ∧ ∀ m : Nat, q.min_nonce ≤ m → m < N → m ∈ q.queue.map Prod.fst} N
      ∧ q.pending_nonce = N % U32_MOD)
    ∧ (q.queue = [] → q.pending_nonce = 0 ∧ q.next_fee = none) := by
  have hkb : ∀ j ∈ q.queue.map Prod.fst, j < U32_MOD := by
    intro j hj
    obtain ⟨p, hp, rfl⟩ := List.mem_map.mp hj
    exact hbound p hp
  have hmin : q.min_nonce < U32_MOD := by
    cases hq : q.queue with
    | nil =>
      have h0 : q.min_nonce = 0 := by
        unfold AccountTxQueue.min_nonce; rw [hq]; rfl
      rw [h0]
      exact U32_MOD_pos
    | cons hd t =>
      have hm : q.min_nonce = hd.1 := by
        unfold AccountTxQueue.min_nonce; rw [hq]; rfl
      rw [hm]
      exact hbound hd (by rw [hq]; exact List.mem_cons_self hd t)
  constructor
  · refine ⟨AccountTxQueue.pendingRun q.min_nonce (q.queue.map Prod.fst),
      ⟨⟨?_, ?_, ?_⟩, ?_⟩, ?_⟩
    · exact AccountTxQueue.pendingRun_le _ _
    · exact AccountTxQueue.pendingRun_not_mem _ _
        (AccountTxQueue.min_nonce_le_keys hwf) (AccountTxQueue.wf_keys_pairwise hwf)
    · exact fun m h1 h2 => AccountTxQueue.pendingRun_mem _ _ m h1 h2
    · intro N hN
      by_contra hlt
      push_neg at hlt
      exact hN.2.1 (AccountTxQueue.pendingRun_mem _ _ N hN.1 hlt)
    · unfold AccountTxQueue.pending_nonce
      exact AccountTxQueue.pendingLoop_eq_mod _ _
        (AccountTxQueue.wf_keys_pairwise hwf) hkb
        (AccountTxQueue.min_nonce_le_keys hwf) hmin
  · intro hnil
    obtain ⟨qq⟩ := q
    simp only at hnil
    subst hnil
    exact ⟨rfl, rfl⟩

/-- C6 witness: the amended characterisation at the concrete queue holding
nonces 5 and 7; the least valid N is 6 and `pending_nonce` returns
6 % 2^32 = 6. -/
theorem pending_nonce_spec_witness :
    (∃ N : Nat, IsLeast {N : Nat | s2Aq.min_nonce ≤ N ∧ N ∉ s2Aq.queue.map Prod.fst
        ∧ ∀ m : Nat, s2Aq.min_nonce ≤ m → m < N → m ∈ s2Aq.queue.map Prod.fst} N
      ∧ s2Aq.pending_nonce = N % U32_MOD)
    ∧ (s2Aq.queue = [] → s2Aq.pending_nonce = 0 ∧ s2Aq.next_fee = none) :=
  pending_nonce_spec s2Aq (by decide) (by decide)

/-- C9: on every well-formed, well-keyed `AccountQueue` state, `pop` conserves
transactions: rejected plus extracted plus the remaining queue contents form
exactly the multiset of transactions present before the call, and an
extracted transaction carries the expected nonce. -/
theorem pop_conservation (q : AccountTxQueue) (n : Nat) (hwf : q.Wf)
    (hwk : ∀ p ∈ q.queue, p.2.nonce = p.1) :
    ((q.pop n).1 : Multiset TransferTx) + ((q.pop n).2.1.toList : Multiset TransferTx)
        + (((q.pop n).2.2).queue.map Prod.snd : Multiset TransferTx)
      = (q.queue.map Prod.snd : Multiset TransferTx)
    ∧ ∀ tx, (q.pop n).2.1 = some tx → tx.nonce = n := by
  constructor
  · have hperm := AccountTxQueue.pop_perm hwf n
    have hco : (((q.pop n).1 ++ (q.pop n).2.1.toList
          ++ ((q.pop n).2.2).queue.map Prod.snd : List TransferTx) : Multiset TransferTx)
        = ((q.queue.map Prod.snd : List TransferTx) : Multiset TransferTx) :=
      Multiset.coe_eq_coe.mpr hperm
    simpa using hco
  · exact fun tx he => AccountTxQueue.pop_extracted_nonce hwk he

/-- C9 witness: conservation at scenario S3 — `pop 6` on the queue holding
nonces 5 and 7 rejects both entries, extracts nothing, and leaves nothing. -/
theorem pop_conservation_witness :
    ((s2Aq.pop 6).1 : Multiset TransferTx)
        + ((s2Aq.pop 6).2.1.toList : Multiset TransferTx)
        + (((s2Aq.pop 6).2.2).queue.map Prod.snd : Multiset TransferTx)
      = (s2Aq.queue.map Prod.snd : Multiset TransferTx)
    ∧ ∀ tx, (s2Aq.pop 6).2.1 = some tx → tx.nonce = 6 :=
  pop_conservation s2Aq 6 (by decide) (by decide)

end MemPoolModel

namespace MemPoolModel

/-- C1 counterexample: inserting a duplicate-nonce transaction does return
`false`, but the stored entry is replaced rather than retained: after the
scenario-S5 inserts the stored fee at account 1, nonce 5 is 50 (not 20),
account 1's `next_fee()` is 50 (not 20), and `peek_next()` returns account 1
(not account 2) — exactly what the source's own `test_tx_queue` asserts. -/
theorem insert_duplicate_counterexample :
    (⟨[(5, mkTx 1 5 20)]⟩ : AccountTxQueue).insert (mkTx 1 5 50)
      = (false, ⟨[(5, mkTx 1 5 50)]⟩)
    ∧ (lookupVal 1 s5Queue.queues).map AccountTxQueue.next_fee
      = some (some ((50 : Nat) : Rat))
    ∧ ¬ ((lookupVal 1 s5Queue.queues).map AccountTxQueue.next_fee
      = some (some ((20 : Nat) : Rat)))
    ∧ s5Queue.peek_next = some 1
    ∧ ¬ (s5Queue.peek_next = some 2) := by
  refine ⟨by decide, by decide, by decide, by decide, by decide⟩

/-- C1 (amended): `AccountQueue.insert` of a transaction whose nonce is
already present returns `false` but *replaces* the stored entry with the new
transaction; consequently, after the scenario-S5 inserts, account 1's
`next_fee()` is 50, `peek_next()` returns account 1, and the queue length is
still 3. -/
theorem insert_duplicate_replaces :
    (∀ (q : AccountTxQueue) (tx : TransferTx), lookupVal tx.nonce q.queue ≠ none →
      (q.insert tx).1 = false ∧ lookupVal tx.nonce ((q.insert tx).2).queue = some tx)
    ∧ ((lookupVal 1 s5Queue.queues).map AccountTxQueue.next_fee
        = some (some ((50 : Nat) : Rat))
      ∧ s5Queue.peek_next = some 1
      ∧ s5Queue.len = 3) := by
  constructor
  · intro q tx hne
    constructor
    · unfold AccountTxQueue.insert
      simp only
      cases hl : lookupVal tx.nonce q.queue with
      | none => exact absurd hl hne
      | some v => rfl
    · unfold AccountTxQueue.insert
      simp only
      have h1 : lookupVal tx.nonce (q.queue.filter (fun p => p.1 < tx.nonce)) = none := by
        rw [lookupVal_eq_none]
        intro p hp
        have := (mem_filter_lt hp).2
        omega
      unfold omInsert
      rw [lookupVal_append_none h1, lookupVal_cons]
      simp
  · exact ⟨by decide, by decide, by decide⟩

/-- C1 witness: the replacement fact applied at the concrete duplicate-nonce
insert of scenario S5. -/
theorem insert_duplicate_replaces_witness :
    ((⟨[(5, mkTx 1 5 20)]⟩ : AccountTxQueue).insert (mkTx 1 5 50)).1 = false
    ∧ lookupVal 5 (((⟨[(5, mkTx 1 5 20)]⟩ : AccountTxQueue).insert (mkTx 1 5 50)).2).queue
      = some (mkTx 1 5 50) :=
  insert_duplicate_replaces.1 ⟨[(5, mkTx 1 5 20)]⟩ (mkTx 1 5 50) (by decide)

end MemPoolModel

namespace MemPoolModel

/-- C3: every `TxQueue` reachable from the default state by `insert`,
`batch_insert` and precondition-respecting `next` calls satisfies, at
operation boundaries: the cached `len` is the sum of the per-account queue
sizes; the priority stored in `order` for each account in `queues` is that
account's `next_fee()`; and no account queue present in `queues` is empty. -/
theorem txqueue_invariants {tq : TxQueue} (h : Reachable tq) :
    tq.len = (tq.queues.map (fun p => p.2.len)).sum
    ∧ (∀ p ∈ tq.queues, lookupVal p.1 tq.order = p.2.next_fee)
    ∧ (∀ p ∈ tq.queues, p.2.queue ≠ []) :=
  ⟨(reachable_inv h).len_eq, (reachable_inv h).prio, (reachable_inv h).nonempty⟩

/-- C3 witness: the three invariants at the concrete scenario-S5 state. -/
theorem txqueue_invariants_witness :
    s5Queue.len = (s5Queue.queues.map (fun p => p.2.len)).sum
    ∧ (∀ p ∈ s5Queue.queues, lookupVal p.1 s5Queue.order = p.2.next_fee)
    ∧ (∀ p ∈ s5Queue.queues, p.2.queue ≠ []) :=
  txqueue_invariants s5_reachable

/-- C5: on a reachable `TxQueue`, calling `next(account_id, next_nonce)` with
`account_id` equal to `peek_next()` invokes the account queue's
`pop(next_nonce)`, decrements `len` by the number of rejected transactions
plus one if a transaction was extracted, and then either updates the
account's priority in `order` to the queue's new `next_fee()` when the queue
is non-empty, or removes the account from both `order` and `queues` when it
has drained. -/
theorem next_spec {tq : TxQueue} {a : Nat} (h : Reachable tq)
    (hpeek : tq.peek_next = some a) (n : Nat) :
    ∃ queue, lookupVal a tq.queues = some queue ∧
    ∃ r e q' tq', queue.pop n = (r, e, q')
      ∧ tq.next a n = some (r, e, tq')
      ∧ tq'.len + (r.length + if e.isSome then 1 else 0) = tq.len
      ∧ (∀ f, q'.next_fee = some f →
          tq'.order = setVal a f tq.order ∧ tq'.queues = setVal a q' tq.queues)
      ∧ (q'.next_fee = none →
          tq'.order = removeKey a tq.order ∧ tq'.queues = removeKey a tq.queues) := by
  obtain ⟨queue, r, e, q', hq, _, hp, _, tq', hnext, _, hlen, hsome, hnone⟩ :=
    next_master (reachable_inv h) hpeek n
  exact ⟨queue, hq, r, e, q', tq', hp, hnext, hlen,
    fun f hf => ⟨((hsome f hf).2 : _), (hsome f hf).1⟩,
    fun hf => ⟨(hnone hf).2, (hnone hf).1⟩⟩

/-- C5 witness: `next` applied at the scenario-S5 state, whose `peek_next`
is account 1, with `next_nonce = 5`. -/
theorem next_spec_witness :
    ∃ queue, lookupVal 1 s5Queue.queues = some queue ∧
    ∃ r e q' tq', queue.pop 5 = (r, e, q')
      ∧ s5Queue.next 1 5 = some (r, e, tq')
      ∧ tq'.len + (r.length + if e.isSome then 1 else 0) = s5Queue.len
      ∧ (∀ f, q'.next_fee = some f →
          tq'.order = setVal 1 f s5Queue.order ∧ tq'.queues = setVal 1 q' s5Queue.queues)
      ∧ (q'.next_fee = none →
          tq'.order = removeKey 1 s5Queue.order ∧ tq'.queues = removeKey 1 s5Queue.queues) :=
  next_spec s5_reachable (by decide) 5

/-- C10: on a reachable `TxQueue` whose `peek_next()` is `some account_id`,
`next(account_id, next_nonce)` cannot panic: the assertion and the `unwrap`s
succeed (a non-empty account queue exists for `account_id`), the subtraction
`len -= ejected` cannot underflow, and in the drained-queue branch
`order.pop()` removes exactly `account_id` from `order`. -/
theorem next_safety {tq : TxQueue} {a : Nat} (h : Reachable tq)
    (hpeek : tq.peek_next = some a) (n : Nat) :
    (tq.next a n).isSome
    ∧ ∃ queue, lookupVal a tq.queues = some queue ∧ queue.queue ≠ []
      ∧ ∀ r e q', queue.pop n = (r, e, q') →
          r.length + (if e.isSome then 1 else 0) ≤ tq.len
          ∧ (q'.next_fee = none → ∀ tq', tq.next a n = some (r, e, tq') →
              tq'.order = removeKey a tq.order ∧ a ∉ tq'.order.map Prod.fst) := by
  obtain ⟨queue, r, e, q', hq, hne, hp, hle, tq', hnext, _, _, _, hnone⟩ :=
    next_master (reachable_inv h) hpeek n
  constructor
  · rw [hnext]; rfl
  · refine ⟨queue, hq, hne, ?_⟩
    intro r' e' q'' hp'
    have heq : (r, e, q') = (r', e', q'') := hp.symm.trans hp'
    obtain ⟨rfl, he'⟩ := Prod.mk.injEq .. ▸ heq
    obtain ⟨rfl, rfl⟩ := Prod.mk.injEq .. ▸ he'
    refine ⟨hle, ?_⟩
    intro hf tq'' hnext'
    have htq : tq' = tq'' := by
      have := Option.some_inj.mp (hnext.symm.trans hnext')
      exact congrArg (fun t : List TransferTx × Option TransferTx × TxQueue => t.2.2) this
    subst htq
    have horder := (hnone hf).2
    refine ⟨horder, ?_⟩
    rw [horder]
    intro hcon
    exact (keys_removeKey.mp hcon).2 rfl

/-- C10 witness: safety of `next` at the scenario-S5 state with
`next_nonce = 5`. -/
theorem next_safety_witness :
    (s5Queue.next 1 5).isSome
    ∧ ∃ queue, lookupVal 1 s5Queue.queues = some queue ∧ queue.queue ≠ []
      ∧ ∀ r e q', queue.pop 5 = (r, e, q') →
          r.length + (if e.isSome then 1 else 0) ≤ s5Queue.len
          ∧ (q'.next_fee = none → ∀ tq', s5Queue.next 1 5 = some (r, e, tq') →
              tq'.order = removeKey 1 s5Queue.order ∧ 1 ∉ tq'.order.map Prod.fst) :=
  next_safety s5_reachable (by decide) 5

end MemPoolModel

namespace MemPoolModel

/-- C4: `add_transaction(tx)` errs exactly when a queue exists for `tx.from`
and either it already holds at least `MAX_TRANSACTIONS_PER_ACCOUNT = 128`
transactions (`TooManyPerAccount`) or `tx.nonce` differs from its
`pending_nonce()` (`NonceOutOfSequence`); on error the `TxQueue` is
unchanged, and when no queue exists any nonce is accepted and inserted. -/
theorem add_transaction_spec (q : TxQueue) (tx : TransferTx) :
    ((add_transaction q tx).2 ≠ none ↔
      ∃ queue, lookupVal tx.from_ q.queues = some queue ∧
        (MAX_TRANSACTIONS_PER_ACCOUNT ≤ queue.len ∨ tx.nonce ≠ queue.pending_nonce))
    ∧ ((add_transaction q tx).2 ≠ none → (add_transaction q tx).1 = q)
    ∧ (∀ queue, lookupVal tx.from_ q.queues = some queue →
        MAX_TRANSACTIONS_PER_ACCOUNT ≤ queue.len →
        add_transaction q tx = (q, some TxError.tooManyPerAccount))
    ∧ (∀ queue, lookupVal tx.from_ q.queues = some queue →
        queue.len < MAX_TRANSACTIONS_PER_ACCOUNT → tx.nonce ≠ queue.pending_nonce →
        add_transaction q tx
          = (q, some (TxError.nonceOutOfSequence queue.pending_nonce tx.nonce)))
    ∧ (lookupVal tx.from_ q.queues = none →
        add_transaction q tx = (q.insert tx, none)) := by
  cases hl : lookupVal tx.from_ q.queues with
  | none =>
    have hrun : add_transaction q tx = (q.insert tx, none) := by
      unfold add_transaction
      rw [hl]
    refine ⟨?_, ?_, ?_, ?_, fun _ => hrun⟩
    · rw [hrun]
      simp
    · rw [hrun]
      simp
    · intro queue hqc
      cases hqc
    · intro queue hqc
      cases hqc
  | some queue =>
    have hstep : add_transaction q tx
        = if MAX_TRANSACTIONS_PER_ACCOUNT ≤ queue.len then
            (q, some TxError.tooManyPerAccount)
          else if tx.nonce ≠ queue.pending_nonce then
            (q, some (TxError.nonceOutOfSequence queue.pending_nonce tx.nonce))
          else (q.insert tx, none) := by
      unfold add_transaction
      rw [hl]
    by_cases h1 : MAX_TRANSACTIONS_PER_ACCOUNT ≤ queue.len
    · have hrun : add_transaction q tx = (q, some TxError.tooManyPerAccount) := by
        rw [hstep, if_pos h1]
      refine ⟨?_, ?_, ?_, ?_, ?_⟩
      · rw [hrun]
        simp only [ne_eq, Option.some_ne_none, not_false_iff, true_iff]
        exact ⟨queue, rfl, Or.inl h1⟩
      · intro _
        rw [hrun]
      · intro queue' hqc _
        exact hrun
      · intro queue' hqc hlt _
        have he : queue = queue' := Option.some_inj.mp hqc
        subst he
        omega
      · intro hc
        cases hc
    · by_cases h2 : tx.nonce = queue.pending_nonce
      · have hrun : add_transaction q tx = (q.insert tx, none) := by
          rw [hstep, if_neg h1, if_neg (fun hc => hc h2)]
        refine ⟨?_, ?_, ?_, ?_, ?_⟩
        · rw [hrun]
          simp only [ne_eq, not_true, false_iff]
          rintro ⟨queue', hqc, hbad⟩
          have he : queue = queue' := Option.some_inj.mp hqc
          subst he
          rcases hbad with hbad | hbad
          · omega
          · exact hbad h2
        · intro hc
          rw [hrun] at hc
          simp at hc
        · intro queue' hqc hge
          have he : queue = queue' := Option.some_inj.mp hqc
          subst he
          omega
        · intro queue' hqc _ hne
          have he : queue = queue' := Option.some_inj.mp hqc
          subst he
          exact absurd h2 hne
        · intro hc
          cases hc
      · have hrun : add_transaction q tx
            = (q, some (TxError.nonceOutOfSequence queue.pending_nonce tx.nonce)) := by
          rw [hstep, if_neg h1, if_pos h2]
        refine ⟨?_, ?_, ?_, ?_, ?_⟩
        · rw [hrun]
          simp only [ne_eq, Option.some_ne_none, not_false_iff, true_iff]
          exact ⟨queue, rfl, Or.inr h2⟩
        · intro _
          rw [hrun]
        · intro queue' hqc hge
          have he : queue = queue' := Option.some_inj.mp hqc
          subst he
          omega
        · intro queue' hqc _ _
          have he : queue = queue' := Option.some_inj.mp hqc
          subst he
          exact hrun
        · intro hc
          cases hc

end MemPoolModel

namespace MemPoolModel

/-- C4 witness: at the scenario-S5 state, a nonce-99 transaction from
account 1 (whose pending nonce is 7) is refused and leaves the queue
unchanged, while any nonce from the unknown account 3 is accepted. -/
theorem add_transaction_spec_witness :
    (add_transaction s5Queue (mkTx 1 99 1)).2 ≠ none
    ∧ (add_transaction s5Queue (mkTx 1 99 1)).1 = s5Queue
    ∧ add_transaction s5Queue (mkTx 3 0 10) = (s5Queue.insert (mkTx 3 0 10), none) := by
  have herr : (add_transaction s5Queue (mkTx 1 99 1)).2 ≠ none :=
    (add_transaction_spec s5Queue (mkTx 1 99 1)).1.mpr
      ⟨⟨[(5, mkTx 1 5 50), (6, mkTx 1 6 50)]⟩, by decide, Or.inr (by decide)⟩
  exact ⟨herr, (add_transaction_spec s5Queue (mkTx 1 99 1)).2.1 herr,
    (add_transaction_spec s5Queue (mkTx 3 0 10)).2.2.2.2 (by decide)⟩

end MemPoolModel

namespace MemPoolModel

theorem handle_request_get (bs : Nat) (mp : MemPool) (a : Nat)
    (reply : TxQueue × BatchResult) :
    handle_request bs mp (MempoolRequest.getPendingNonce a) reply = (mp, []) := rfl

theorem handle_request_pb (bs : Nat) (mp : MemPool) (reply : TxQueue × BatchResult) :
    handle_request bs mp MempoolRequest.processBatch reply
      = (⟨false, process_batch reply⟩, []) := rfl

theorem handle_request_add_err {q' : TxQueue} {err : TxError} (bs : Nat) (mp : MemPool)
    (tx : TransferTx) (reply : TxQueue × BatchResult)
    (h : add_transaction mp.queue tx = (q', some err)) :
    handle_request bs mp (MempoolRequest.addTransaction tx) reply
      = (⟨mp.batch_requested, q'⟩, []) := by
  unfold handle_request
  dsimp only
  rw [h]

theorem handle_request_add_ok {q' : TxQueue} (bs : Nat) (mp : MemPool)
    (tx : TransferTx) (reply : TxQueue × BatchResult)
    (h : add_transaction mp.queue tx = (q', none)) :
    handle_request bs mp (MempoolRequest.addTransaction tx) reply
      = if mp.batch_requested = false ∧ bs ≤ q'.len then
          (⟨true, q'⟩, [MempoolRequest.processBatch])
        else (⟨mp.batch_requested, q'⟩, []) := by
  unfold handle_request
  dsimp only
  rw [h]

theorem loop_flag_count_step {batch_size : Nat} {s s' : LoopState}
    (hstep : LoopStep batch_size s s')
    (ih : (s.channel.filter (fun r => r = MempoolRequest.processBatch)).length
      = if s.pool.batch_requested then 1 else 0) :
    (s'.channel.filter (fun r => r = MempoolRequest.processBatch)).length
      = if s'.pool.batch_requested then 1 else 0 := by
  cases hstep with
  | arrive r reply hr =>
    dsimp only
    simp only [List.filter_append, List.length_append]
    have hone : ([r].filter (fun r => r = MempoolRequest.processBatch)) = [] := by
      simp [List.filter_cons, hr]
    rw [hone]
    simpa using ih
  | handle req rest reply mp' posts hc hh =>
    rw [hc] at ih
    cases req with
    | getPendingNonce a =>
      have h0 := (handle_request_get batch_size s.pool a reply).symm.trans hh
      injection h0 with h1 h2
      subst h1
      subst h2
      dsimp only
      simp only [List.filter_append, List.length_append, List.filter_nil,
        List.length_nil]
      simp only [List.filter_cons] at ih
      rw [if_neg (by simp)] at ih
      omega
    | processBatch =>
      have h0 := (handle_request_pb batch_size s.pool reply).symm.trans hh
      injection h0 with h1 h2
      subst h1
      subst h2
      rw [List.filter_cons] at ih
      rw [if_pos (by simp)] at ih
      rw [List.length_cons] at ih
      dsimp only
      rw [List.append_nil, if_neg (by simp)]
      cases hbr : s.pool.batch_requested with
      | false => rw [hbr, if_neg (by simp)] at ih; omega
      | true => rw [hbr, if_pos rfl] at ih; omega
    | addTransaction tx =>
      rcases hadd : add_transaction s.pool.queue tx with ⟨q', res⟩
      simp only [List.filter_cons] at ih
      rw [if_neg (by simp)] at ih
      cases res with
      | some err =>
        have h0 := (handle_request_add_err batch_size s.pool tx reply hadd).symm.trans hh
        injection h0 with h1 h2
        subst h1
        subst h2
        dsimp only
        simp only [List.filter_append, List.length_append, List.filter_nil,
          List.length_nil]
        omega
      | none =>
        have h0 := (handle_request_add_ok batch_size s.pool tx reply hadd).symm.trans hh
        by_cases hcnd : s.pool.batch_requested = false ∧ batch_size ≤ q'.len
        · rw [if_pos hcnd] at h0
          injection h0 with h1 h2
          subst h1
          subst h2
          rw [hcnd.1] at ih
          rw [if_neg (by simp)] at ih
          dsimp only
          simp only [List.filter_append, List.length_append]
          have hpb : ([MempoolRequest.processBatch].filter
              (fun r => r = MempoolRequest.processBatch)).length = 1 := by
            simp [List.filter_cons]
          rw [hpb, if_pos trivial]
          omega
        · rw [if_neg hcnd] at h0
          injection h0 with h1 h2
          subst h1
          subst h2
          dsimp only
          simp only [List.filter_append, List.length_append, List.filter_nil,
            List.length_nil]
          omega

theorem loop_flag_count {batch_size : Nat} {s : LoopState}
    (h : LoopReachable batch_size s) :
    (s.channel.filter (fun r => r = MempoolRequest.processBatch)).length
      = if s.pool.batch_requested then 1 else 0 := by
  induction h with
  | init => rfl
  | step hre hstep ih => exact loop_flag_count_step hstep ih

end MemPoolModel

namespace MemPoolModel

/-- C7: in the event loop, handling `AddTransaction` self-posts a
`ProcessBatch` request exactly when admission succeeded, `batch_requested`
was `false`, and the queue length after admission reaches the batch size, in
which case `batch_requested` becomes `true`; `batch_requested` is cleared at
the start of the `ProcessBatch` handler; consequently, in every reachable
loop state, the channel holds a pending `ProcessBatch` message exactly while
`batch_requested` is `true`. -/
theorem batch_flag_spec (batch_size : Nat) :
    (∀ s : LoopState, LoopReachable batch_size s →
      (s.channel.filter (fun r => r = MempoolRequest.processBatch)).length
        = if s.pool.batch_requested then 1 else 0)
    ∧ (∀ (mp : MemPool) (tx : TransferTx) (reply : TxQueue × BatchResult),
        ((handle_request batch_size mp (MempoolRequest.addTransaction tx) reply).2
            = [MempoolRequest.processBatch]
          ↔ (add_transaction mp.queue tx).2 = none ∧ mp.batch_requested = false
            ∧ batch_size ≤ ((add_transaction mp.queue tx).1).len)
        ∧ ((handle_request batch_size mp (MempoolRequest.addTransaction tx) reply).2
              = [MempoolRequest.processBatch] →
            (handle_request batch_size mp
              (MempoolRequest.addTransaction tx) reply).1.batch_requested = true)
        ∧ ((handle_request batch_size mp (MempoolRequest.addTransaction tx) reply).2
              ≠ [MempoolRequest.processBatch] →
            (handle_request batch_size mp (MempoolRequest.addTransaction tx) reply).2 = []
            ∧ (handle_request batch_size mp
                (MempoolRequest.addTransaction tx) reply).1.batch_requested
              = mp.batch_requested))
    ∧ (∀ (mp : MemPool) (reply : TxQueue × BatchResult),
        (handle_request batch_size mp MempoolRequest.processBatch reply).1.batch_requested
          = false
        ∧ (handle_request batch_size mp MempoolRequest.processBatch reply).2 = []) := by
  refine ⟨fun s h => loop_flag_count h, ?_, fun mp reply => ⟨rfl, rfl⟩⟩
  intro mp tx reply
  rcases hadd : add_transaction mp.queue tx with ⟨q', res⟩
  have hfst : (add_transaction mp.queue tx).1 = q' := by rw [hadd]
  have hsnd : (add_transaction mp.queue tx).2 = res := by rw [hadd]
  cases res with
  | some err =>
    rw [handle_request_add_err batch_size mp tx reply hadd]
    refine ⟨?_, ?_, fun _ => ⟨rfl, rfl⟩⟩
    · constructor
      · intro hc
        simp at hc
      · rintro ⟨hok, _, _⟩
        simp at hok
    · intro hc
      simp at hc
  | none =>
    rw [handle_request_add_ok batch_size mp tx reply hadd]
    by_cases hcnd : mp.batch_requested = false ∧ batch_size ≤ q'.len
    · rw [if_pos hcnd]
      refine ⟨?_, fun _ => rfl, ?_⟩
      · constructor
        · intro _
          exact ⟨rfl, hcnd.1, hcnd.2⟩
        · intro _
          rfl
      · intro hc
        exact absurd rfl hc
    · rw [if_neg hcnd]
      refine ⟨?_, ?_, fun _ => ⟨rfl, rfl⟩⟩
      · constructor
        · intro hc
          simp at hc
        · rintro ⟨_, hbr, hle⟩
          exact absurd ⟨hbr, hle⟩ hcnd
      · intro hc
        simp at hc

/-- C7 witness: with batch size 1, after one admission that crosses the
threshold the loop state holds exactly one pending `ProcessBatch` and the
flag is set. -/
theorem batch_flag_spec_witness :
    ((⟨⟨true, TxQueue.default.insert (mkTx 1 0 5)⟩, [MempoolRequest.processBatch]⟩
        : LoopState).channel.filter (fun r => r = MempoolRequest.processBatch)).length
      = if (⟨⟨true, TxQueue.default.insert (mkTx 1 0 5)⟩, [MempoolRequest.processBatch]⟩
          : LoopState).pool.batch_requested then 1 else 0 :=
  (batch_flag_spec 1).1 _
    (LoopReachable.step
      (LoopReachable.step LoopReachable.init
        (LoopStep.arrive _ (MempoolRequest.addTransaction (mkTx 1 0 5))
          (TxQueue.default, BatchResult.applied [] 0) (by decide)))
      (LoopStep.handle _ (MempoolRequest.addTransaction (mkTx 1 0 5)) []
        (TxQueue.default, BatchResult.applied [] 0)
        ⟨true, TxQueue.default.insert (mkTx 1 0 5)⟩
        [MempoolRequest.processBatch] rfl (by decide)))

/-- C8: after the state keeper replies to a batch handoff, the mempool
adopts the returned `TxQueue`; on `Rejected{valid, invalid}` exactly the
valid transactions are reinserted via `batch_insert` (the result does not
depend on `invalid`), and on `Applied` nothing is reinserted. -/
theorem process_batch_spec (bs : Nat) (mp : MemPool) (queue_back : TxQueue)
    (applied : List TransferTx) (block_number : Nat) (valid invalid : List TransferTx) :
    process_batch (queue_back, BatchResult.applied applied block_number) = queue_back
    ∧ process_batch (queue_back, BatchResult.rejected valid invalid)
        = queue_back.batch_insert valid
    ∧ handle_request bs mp MempoolRequest.processBatch
        (queue_back, BatchResult.applied applied block_number)
      = (⟨false, queue_back⟩, [])
    ∧ handle_request bs mp MempoolRequest.processBatch
        (queue_back, BatchResult.rejected valid invalid)
      = (⟨false, queue_back.batch_insert valid⟩, []) :=
  ⟨rfl, rfl, rfl, rfl⟩

end MemPoolModel
